import Mathlib

/-!
# Brainfuck helper: loop table construction and single-step execution

A shallow embedding of `brainfuck_helper.c` (functions `build_loops` and
`execute_instruction`) together with the properties stated about them.

Conventions of the embedding.

* A C string is the list of its characters; the byte that follows the last
  character in memory is the terminator `NUL`.  `mem input_prog` is the whole
  buffer, terminator included, and every read `*ip` is a lookup in it.
* A pointer into a buffer is the index of the cell it points to.  The two
  pointers stored by `build_loops` point into different buffers, so they carry
  the buffer they point into (`Ptr`).
* Pointer arithmetic is unchecked, as in the source: the data pointer is an
  integer offset from the first cell of the tape and `++dp`, `--dp` may take it
  out of the tape; only a read or a write through it is then undefined.
* `uint8_t` cells are natural numbers below 256, every arithmetic update is
  followed by an explicit `% 256`.
* `getchar` and `putchar` act on two byte lists carried by the state: the bytes
  still pending on standard input and the bytes written so far.
* A result `none` stands for a step whose behaviour C leaves undefined: a read
  or a write outside the text buffer or outside the tape.
* `execute_instruction_flat` is the same step in the memory around the tape
  (`FlatState`): there a read or a write through a data pointer outside the tape
  reaches the neighbouring byte.  It says what a run that leaves the tape outputs.
-/

namespace Brainfuck

/-! ## Data model -/

/-- Number of cells of the tape (`#define DATA_ARRAY_SIZE 32000`). -/
def DATA_ARRAY_SIZE : Nat := 32000

/-- The string terminator `'\0'`. -/
def NUL : Char := Char.ofNat 0

/-- Value of the `EOF` constant of `<stdio.h>`, returned by `getchar` at end of stream. -/
def EOF : Int := -1

/-- The text buffer: the characters of the program followed by the terminator. -/
def mem (input_prog : List Char) : List Char := input_prog ++ [NUL]

/-- Length of a C string: number of characters before the first terminator. -/
def strlen : List Char → Nat
  | [] => 0
  | c :: rest => if c = NUL then 0 else strlen rest + 1

/-- A `char*` as stored in a `Loop`: either `input_prog + offset` or `&stack[offset]`,
where `stack` is the scratch buffer allocated (and freed) by `build_loops`. -/
inductive Ptr where
  | prog (offset : Nat)
  | stack (offset : Nat)
deriving DecidableEq, Repr

/-- The C `struct Loop` (field `end` is spelled `end_`). -/
structure Loop where
  start : Ptr
  end_ : Ptr
deriving DecidableEq, Repr

/-- The C `struct Loops`: `count` entries stored in `array`. -/
structure Loops where
  count : Nat
  array : List Loop
deriving DecidableEq, Repr

/-- Local variables of `build_loops` during its scan. -/
structure Scan where
  stack : List Char
  stack_index : Nat
  loops : Loops
deriving DecidableEq, Repr

/-- Everything `execute_instruction` reads or writes: `*ipp`, `*dpp`, the tape `*dpp`
points into, standard input, standard output and `*is_program_finished`. -/
structure State where
  ip : Nat
  dp : Int
  tape : List Nat
  input : List Nat
  output : List Nat
  is_program_finished : Bool
deriving DecidableEq, Repr

/-! ## `build_loops` -/

/-- The `for (char* ip = input_prog; *ip != '\0'; ++ip)` loop of `build_loops`.
The first argument is the text from `ip` on (empty when `*ip` is the terminator),
the second the index of `ip`.  `none` is the early `return NULL`. -/
def build_loops_scan : List Char → Nat → Scan → Option Scan
  | [], _, s => some s
  | c :: rest, ip, s =>
    if c = NUL then some s
    else if c = '[' then
      build_loops_scan rest (ip + 1)
        { s with stack := s.stack.set s.stack_index c, stack_index := s.stack_index + 1 }
    else if c = ']' then
      if s.stack_index = 0 then none
      else
        build_loops_scan rest (ip + 1)
          { s with
            stack_index := s.stack_index - 1
            loops :=
              { count := s.loops.count + 1
                array := s.loops.array ++ [{ start := Ptr.stack (s.stack_index - 1), end_ := Ptr.prog ip }] } }
    else build_loops_scan rest (ip + 1) s

/-- The function `build_loops`; both allocations are taken to succeed.  The bytes of
the fresh `stack` buffer are never read, they are shown as `NUL`. -/
def build_loops (input_prog : List Char) : Option Loops :=
  let loops : Loops := { count := 0, array := [] }
  let input_prog_length := strlen input_prog
  let stack := List.replicate input_prog_length NUL
  match build_loops_scan input_prog 0 { stack := stack, stack_index := 0, loops := loops } with
  | none => none
  | some s => if s.stack_index ≠ 0 then none else some s.loops

/-! ## `execute_instruction` -/

/-- Read of the cell `*dp`. -/
def load (tape : List Nat) (dp : Int) : Option Nat :=
  if 0 ≤ dp then tape[dp.toNat]? else none

/-- Write `*dp = v`. -/
def store (tape : List Nat) (dp : Int) (v : Nat) : Option (List Nat) :=
  if 0 ≤ dp then (tape[dp.toNat]?).map (fun _ => tape.set dp.toNat v) else none

/-- The call `getchar()`: next pending byte, or `EOF` when none is left. -/
def getchar (input : List Nat) : Int × List Nat :=
  match input with
  | [] => (EOF, [])
  | b :: rest => (((b % 256 : Nat) : Int), rest)

/-- Conversion of an `int` to `uint8_t`. -/
def to_uint8 (v : Int) : Nat := (v % 256).toNat

/-- The loop `while (count != 0) { ++ip; if (*ip == '[') ++count; else if (*ip == ']') --count; }`.
The first argument is the buffer after `ip`; the result is the final `ip`. -/
def scan_forward : List Char → Nat → Int → Option Nat
  | [], ip, count => if count ≠ 0 then none else some ip
  | c :: rest, ip, count =>
    if count ≠ 0 then
      scan_forward rest (ip + 1)
        (if c = '[' then count + 1 else if c = ']' then count - 1 else count)
    else some ip

/-- The loop `while (count != 0) { --ip; if (*ip == ']') ++count; else if (*ip == '[') --count; }`.
The result is the final `ip`. -/
def scan_backward (input_prog : List Char) : Nat → Int → Option Nat
  | 0, count => if count ≠ 0 then none else some 0
  | ip + 1, count =>
    if count ≠ 0 then
      match (mem input_prog)[ip]? with
      | none => none
      | some c =>
        scan_backward input_prog ip
          (if c = ']' then count + 1 else if c = '[' then count - 1 else count)
    else some (ip + 1)

/-- The `switch (*ip)` of `execute_instruction`, `c` being `*ip`. -/
def switch_body (input_prog : List Char) (c : Char) (s : State) : Option State :=
  if c = '>' then some { s with dp := s.dp + 1 }
  else if c = '<' then some { s with dp := s.dp - 1 }
  else if c = '+' then
    match load s.tape s.dp with
    | none => none
    | some v =>
      match store s.tape s.dp ((v + 1) % 256) with
      | none => none
      | some tape => some { s with tape := tape }
  else if c = '-' then
    match load s.tape s.dp with
    | none => none
    | some v =>
      match store s.tape s.dp ((v + 255) % 256) with
      | none => none
      | some tape => some { s with tape := tape }
  else if c = '.' then
    match load s.tape s.dp with
    | none => none
    | some v => some { s with output := s.output ++ [v] }
  else if c = ',' then
    match store s.tape s.dp (to_uint8 (getchar s.input).1) with
    | none => none
    | some tape => some { s with tape := tape, input := (getchar s.input).2 }
  else if c = '[' then
    match load s.tape s.dp with
    | none => none
    | some v =>
      if v = 0 then
        match scan_forward ((mem input_prog).drop (s.ip + 1)) s.ip 1 with
        | none => none
        | some ip => some { s with ip := ip }
      else some s
  else if c = ']' then
    match load s.tape s.dp with
    | none => none
    | some v =>
      if v ≠ 0 then
        match scan_backward input_prog s.ip 1 with
        | none => none
        | some ip => some { s with ip := ip }
      else some s
  else some s

/-- The function `execute_instruction`: dispatch on `*ip`, then `++ip` and the test
`if (*ip == '\0') *is_program_finished = true`.  The argument `loops` is unused,
as in the source (`(void)loops;`). -/
def execute_instruction (input_prog : List Char) (loops : Option Loops) (s : State) :
    Option State :=
  let _ := loops
  match (mem input_prog)[s.ip]? with
  | none => none
  | some c =>
    match switch_body input_prog c s with
    | none => none
    | some s1 =>
      match (mem input_prog)[s1.ip + 1]? with
      | none => none
      | some c1 =>
        some { s1 with
          ip := s1.ip + 1
          is_program_finished := if c1 = NUL then true else s1.is_program_finished }

/-- State at the start of a run: both pointers at index 0, flag unset, nothing written. -/
def initial_state (tape : List Nat) (input : List Nat) : State :=
  { ip := 0, dp := 0, tape := tape, input := input, output := [], is_program_finished := false }

/-- The zero-initialised tape of `DATA_ARRAY_SIZE` cells. -/
def zero_tape : List Nat := List.replicate DATA_ARRAY_SIZE 0

/-- Repeated `execute_instruction` until `is_program_finished` is set, for at most
`n` steps: the state reached, or `none` when a step is undefined. -/
def run (input_prog : List Char) (loops : Option Loops) : Nat → State → Option State
  | 0, s => some s
  | n + 1, s =>
    if s.is_program_finished then some s
    else
      match execute_instruction input_prog loops s with
      | none => none
      | some s1 => run input_prog loops n s1

/-- State with `z` more cells appended to the tape. -/
def State.extend (s : State) (z : List Nat) : State := { s with tape := s.tape ++ z }

/-- State with the pending input replaced by `i`. -/
def State.with_input (s : State) (i : List Nat) : State := { s with input := i }

/-- The classic 106-character Hello World program. -/
def hello_world : List Char :=
  "++++++++[>++++[>++>+++>+++>+<<<<-]>+>+>->>+[<]<-]>>.>---.+++++++..+++.>>.<-.<.+++.------.--------.>>+.>++.".toList

/-! ## `execute_instruction` on the memory around the tape -/

/-- State of a run in the memory of the process: as `State`, but instead of the
cells of the tape alone it holds `memory`, the byte found at every offset from the
first cell of the tape.  The tape is the offsets `0 ≤ i < DATA_ARRAY_SIZE`; the
other offsets are whatever lies next to it (the text buffer is taken to lie
elsewhere). -/
structure FlatState where
  ip : Nat
  dp : Int
  memory : Int → Nat
  input : List Nat
  output : List Nat
  is_program_finished : Bool

/-- The `switch (*ip)` of `execute_instruction` where `*dp` is a plain memory access:
since the source checks no bound, a data pointer outside the tape reads and writes
the neighbouring bytes. -/
def switch_body_flat (input_prog : List Char) (c : Char) (s : FlatState) : Option FlatState :=
  if c = '>' then some { s with dp := s.dp + 1 }
  else if c = '<' then some { s with dp := s.dp - 1 }
  else if c = '+' then
    some { s with memory := Function.update s.memory s.dp ((s.memory s.dp + 1) % 256) }
  else if c = '-' then
    some { s with memory := Function.update s.memory s.dp ((s.memory s.dp + 255) % 256) }
  else if c = '.' then some { s with output := s.output ++ [s.memory s.dp] }
  else if c = ',' then
    some { s with
      memory := Function.update s.memory s.dp (to_uint8 (getchar s.input).1)
      input := (getchar s.input).2 }
  else if c = '[' then
    if s.memory s.dp = 0 then
      match scan_forward ((mem input_prog).drop (s.ip + 1)) s.ip 1 with
      | none => none
      | some ip => some { s with ip := ip }
    else some s
  else if c = ']' then
    if s.memory s.dp ≠ 0 then
      match scan_backward input_prog s.ip 1 with
      | none => none
      | some ip => some { s with ip := ip }
    else some s
  else some s

/-- The function `execute_instruction` on the memory around the tape: as
`execute_instruction`, with `switch_body_flat` for the dispatch. -/
def execute_instruction_flat (input_prog : List Char) (loops : Option Loops) (s : FlatState) :
    Option FlatState :=
  let _ := loops
  match (mem input_prog)[s.ip]? with
  | none => none
  | some c =>
    match switch_body_flat input_prog c s with
    | none => none
    | some s1 =>
      match (mem input_prog)[s1.ip + 1]? with
      | none => none
      | some c1 =>
        some { s1 with
          ip := s1.ip + 1
          is_program_finished := if c1 = NUL then true else s1.is_program_finished }

/-- State at the start of a run in memory `memory`. -/
def flat_initial_state (memory : Int → Nat) (input : List Nat) : FlatState :=
  { ip := 0, dp := 0, memory := memory, input := input, output := [],
    is_program_finished := false }

/-- Repeated `execute_instruction_flat` until `is_program_finished` is set, for at
most `n` steps. -/
def run_flat (input_prog : List Char) (loops : Option Loops) : Nat → FlatState → Option FlatState
  | 0, s => some s
  | n + 1, s =>
    if s.is_program_finished then some s
    else
      match execute_instruction_flat input_prog loops s with
      | none => none
      | some s1 => run_flat input_prog loops n s1

/-- Memory `m` holds the cells of `tape` at the offsets of the tape. -/
def HoldsTape (m : Int → Nat) (tape : List Nat) : Prop :=
  ∀ (i : Nat) (v : Nat), tape[i]? = some v → m (i : Int) = v

/-- A state on the tape alone and a state in memory describe the same point of a
run: same pointers, input, output and flag, and the memory holds the tape. -/
def Agrees (s : State) (f : FlatState) : Prop :=
  f.ip = s.ip ∧ f.dp = s.dp ∧ f.input = s.input ∧ f.output = s.output ∧
    f.is_program_finished = s.is_program_finished ∧ HoldsTape f.memory s.tape

/-! ## Reference notions used in the statements -/

/-- A text is well nested when each of its initial segments holds at least as many
`[` as `]` and the whole text holds as many of each. -/
def WellNested (prog : List Char) : Prop :=
  (∀ n, n < prog.length + 1 → (prog.take n).count ']' ≤ (prog.take n).count '[') ∧
    prog.count '[' = prog.count ']'

instance (prog : List Char) : Decidable (WellNested prog) := by
  unfold WellNested; infer_instance

/-- Stack-discipline matching in the words of the specification: scan from left to
right with a stack of pending open positions; `[` pushes its position, `]` pops
the top `p` and records `(p, position)`; an empty stack at `]` or a non-empty one
at the end is an error. -/
def resolve_scan : List Char → Nat → List Nat → List (Nat × Nat) → Option (List (Nat × Nat))
  | [], _, [], acc => some acc
  | [], _, _ :: _, _ => none
  | c :: rest, pos, stack, acc =>
    if c = '[' then resolve_scan rest (pos + 1) (pos :: stack) acc
    else if c = ']' then
      match stack with
      | [] => none
      | p :: stack1 => resolve_scan rest (pos + 1) stack1 ((p, pos) :: acc)
    else resolve_scan rest (pos + 1) stack acc

/-- The pairs `(open, close)` of a text under stack-discipline matching. -/
def resolve (prog : List Char) : Option (List (Nat × Nat)) :=
  resolve_scan prog 0 [] []

/-- Position `q` is the close that stack-discipline matching pairs with the open at `p`. -/
def Matching (prog : List Char) (p q : Nat) : Prop :=
  ∃ m, resolve prog = some m ∧ (p, q) ∈ m

/-- Nesting depth before position `n`: number of `[` minus number of `]` among the
first `n` characters. -/
def height (prog : List Char) (n : Nat) : Int :=
  ((prog.take n).count '[' : Int) - ((prog.take n).count ']' : Int)

/-- Effect of one character on the nesting depth. -/
def delta (c : Char) : Int :=
  if c = '[' then 1 else if c = ']' then -1 else 0

/-- Positions `p < q` hold a `[` and a `]` that enclose a block: the depth after `q`
is the depth before `p`, and it stays above that in between. -/
def Encloses (prog : List Char) (p q : Nat) : Prop :=
  p < q ∧ prog[p]? = some '[' ∧ prog[q]? = some ']' ∧
    height prog (q + 1) = height prog p ∧
      ∀ m, p < m → m ≤ q → height prog p < height prog m

/-- Invariant of the stack of pending opens when the scan stands at `pos`. -/
def StackOK (prog : List Char) (pos : Nat) : List Nat → Prop
  | [] => True
  | p :: stack =>
    p < pos ∧ prog[p]? = some '[' ∧ height prog p = (stack.length : Int) ∧
      (∀ m, p < m → m ≤ pos → (stack.length : Int) < height prog m) ∧
        StackOK prog pos stack

/-! ## The scan of `build_loops` -/

theorem forall_lt_succ_cons {P : Nat → Prop} (k : Nat) :
    (∀ n, n < k + 1 + 1 → P n) ↔ P 0 ∧ ∀ n, n < k + 1 → P (n + 1) := by
  constructor
  · intro h
    exact ⟨h 0 (by omega), fun n hn => h (n + 1) (by omega)⟩
  · rintro ⟨h0, hs⟩ n hn
    cases n with
    | zero => exact h0
    | succ m => exact hs m (by omega)

theorem build_loops_scan_isSome (l : List Char) (hnul : NUL ∉ l) :
    ∀ (ip : Nat) (s : Scan), (∃ s1, build_loops_scan l ip s = some s1) ↔
      ∀ n, n < l.length + 1 →
        (l.take n).count ']' ≤ s.stack_index + (l.take n).count '[' := by
  induction l with
  | nil =>
    intro ip s
    simp [build_loops_scan]
  | cons c rest ih =>
    intro ip s
    have hc : c ≠ NUL := fun h => hnul (by simp [h])
    have hrest : NUL ∉ rest := fun h => hnul (by simp [h])
    rw [List.length_cons, forall_lt_succ_cons]
    by_cases h1 : c = '['
    · subst h1
      simp only [build_loops_scan, if_neg hc, if_true]
      rw [ih hrest]
      simp only [List.take_succ_cons, List.take_zero]
      simp
      constructor <;> intro h n hn <;> have := h n hn <;> omega
    · by_cases h2 : c = ']'
      · subst h2
        simp only [build_loops_scan, if_neg hc, if_neg h1, if_true]
        by_cases h3 : s.stack_index = 0
        · simp only [h3, if_true]
          simp
          exact ⟨0, by omega, by simp⟩
        · simp only [if_neg h3]
          rw [ih hrest]
          simp only [List.take_succ_cons, List.take_zero]
          simp
          constructor <;> intro h n hn <;> have := h n hn <;> omega
      · simp only [build_loops_scan, if_neg hc, if_neg h1, if_neg h2]
        rw [ih hrest]
        simp only [List.take_succ_cons, List.take_zero]
        have e1 : ∀ (t : List Char), List.count ']' (c :: t) = List.count ']' t := by
          intro t; rw [List.count_cons_of_ne (Ne.symm h2)]
        have e2 : ∀ (t : List Char), List.count '[' (c :: t) = List.count '[' t := by
          intro t; rw [List.count_cons_of_ne (Ne.symm h1)]
        simp [e1, e2]

theorem build_loops_scan_result (l : List Char) (hnul : NUL ∉ l) :
    ∀ (ip : Nat) (s s1 : Scan), build_loops_scan l ip s = some s1 →
      s1.stack_index + l.count ']' = s.stack_index + l.count '[' ∧
        s1.loops.count = s.loops.count + l.count ']' ∧
          s1.loops.array.length = s.loops.array.length + l.count ']' := by
  induction l with
  | nil =>
    intro ip s s1 h
    simp only [build_loops_scan, Option.some.injEq] at h
    subst h
    simp
  | cons c rest ih =>
    intro ip s s1 h
    have hc : c ≠ NUL := fun h => hnul (by simp [h])
    have hrest : NUL ∉ rest := fun h => hnul (by simp [h])
    by_cases h1 : c = '['
    · subst h1
      simp only [build_loops_scan, if_neg hc, if_true] at h
      have := ih hrest _ _ _ h
      simp at this ⊢
      omega
    · by_cases h2 : c = ']'
      · subst h2
        simp only [build_loops_scan, if_neg hc, if_neg h1, if_true] at h
        by_cases h3 : s.stack_index = 0
        · simp [h3] at h
        · simp only [if_neg h3] at h
          have := ih hrest _ _ _ h
          simp at this ⊢
          omega
      · simp only [build_loops_scan, if_neg hc, if_neg h1, if_neg h2] at h
        have := ih hrest _ _ _ h
        rw [List.count_cons_of_ne (Ne.symm h2), List.count_cons_of_ne (Ne.symm h1)]
        exact this

theorem build_loops_eq_some_iff (prog : List Char) (loops : Loops) :
    build_loops prog = some loops ↔
      ∃ s, build_loops_scan prog 0
          { stack := List.replicate (strlen prog) NUL, stack_index := 0,
            loops := { count := 0, array := [] } } = some s ∧
        s.stack_index = 0 ∧ s.loops = loops := by
  unfold build_loops
  simp only []
  cases h : build_loops_scan prog 0
      { stack := List.replicate (strlen prog) NUL, stack_index := 0,
        loops := { count := 0, array := [] } } with
  | none => simp
  | some s =>
    by_cases h0 : s.stack_index = 0
    · simp [h0]
    · simp [h0]

theorem build_loops_isSome_iff (prog : List Char) (hnul : NUL ∉ prog) :
    (∃ loops, build_loops prog = some loops) ↔ WellNested prog := by
  constructor
  · rintro ⟨loops, h⟩
    obtain ⟨s, hs, h0, -⟩ := (build_loops_eq_some_iff prog loops).1 h
    have hres := build_loops_scan_result prog hnul _ _ _ hs
    have hpre := (build_loops_scan_isSome prog hnul _ _).1 ⟨s, hs⟩
    refine ⟨fun n hn => ?_, ?_⟩
    · have := hpre n hn
      simpa using this
    · have := hres.1
      simp only [h0] at this
      omega
  · rintro ⟨hpre, htot⟩
    obtain ⟨s, hs⟩ := (build_loops_scan_isSome prog hnul 0
      { stack := List.replicate (strlen prog) NUL, stack_index := 0,
        loops := { count := 0, array := [] } }).2 (fun n hn => by simpa using hpre n hn)
    have hres := build_loops_scan_result prog hnul _ _ _ hs
    refine ⟨s.loops, (build_loops_eq_some_iff prog _).2 ⟨s, hs, ?_, rfl⟩⟩
    have := hres.1
    simp only at this
    omega

/-! ## Nesting depth and stack-discipline matching -/

theorem height_zero (prog : List Char) : height prog 0 = 0 := by
  simp [height]

theorem height_succ (prog : List Char) (n : Nat) (c : Char) (h : prog[n]? = some c) :
    height prog (n + 1) = height prog n + delta c := by
  unfold height delta
  rw [List.take_succ, h]
  simp only [Option.toList, List.count_append, List.count_cons, List.count_nil]
  by_cases h1 : c = '['
  · subst h1; simp; omega
  · by_cases h2 : c = ']'
    · subst h2; simp; omega
    · simp [h1, h2]

theorem drop_eq_cons {prog : List Char} {pos : Nat} {c : Char} {rest : List Char}
    (h : prog.drop pos = c :: rest) : prog[pos]? = some c ∧ prog.drop (pos + 1) = rest := by
  constructor
  · have := List.getElem?_drop prog pos 0
    rw [h] at this
    simpa using this.symm
  · have : prog.drop (pos + 1) = (prog.drop pos).drop 1 := by
      rw [List.drop_drop, Nat.add_comm]
    rw [this, h]
    rfl

theorem stackOK_advance (prog : List Char) (pos : Nat) :
    ∀ stack : List Nat, StackOK prog pos stack →
      (stack.length : Int) ≤ height prog (pos + 1) → StackOK prog (pos + 1) stack := by
  intro stack
  induction stack with
  | nil => intro _ _; trivial
  | cons p stack ih =>
    intro h hle
    obtain ⟨h1, h2, h3, h4, h5⟩ := h
    simp only [List.length_cons, Nat.cast_add, Nat.cast_one] at hle
    refine ⟨by omega, h2, h3, ?_, ih h5 (by omega)⟩
    intro m hm hm1
    by_cases hmp : m ≤ pos
    · exact h4 m hm hmp
    · have : m = pos + 1 := by omega
      subst this
      omega

theorem resolve_scan_encloses (prog : List Char) :
    ∀ (rest : List Char) (pos : Nat) (stack : List Nat) (acc m : List (Nat × Nat)),
      prog.drop pos = rest → height prog pos = (stack.length : Int) →
        StackOK prog pos stack → (∀ x ∈ acc, Encloses prog x.1 x.2) →
          resolve_scan rest pos stack acc = some m → ∀ x ∈ m, Encloses prog x.1 x.2 := by
  intro rest
  induction rest with
  | nil =>
    intro pos stack acc m _ _ _ hacc h
    cases stack with
    | nil =>
      simp only [resolve_scan, Option.some.injEq] at h
      subst h
      exact hacc
    | cons p stack => simp [resolve_scan] at h
  | cons c rest ih =>
    intro pos stack acc m hdrop hh hst hacc h
    obtain ⟨hc, hd⟩ := drop_eq_cons hdrop
    have hs := height_succ prog pos c hc
    by_cases h1 : c = '['
    · subst h1
      simp only [resolve_scan, if_true] at h
      simp only [delta, if_true] at hs
      refine ih (pos + 1) (pos :: stack) acc m hd ?_ ?_ hacc h
      · simp only [List.length_cons, Nat.cast_add, Nat.cast_one]; omega
      · refine ⟨by omega, hc, hh, ?_, stackOK_advance prog pos stack hst (by omega)⟩
        intro k hk hk1
        have : k = pos + 1 := by omega
        subst this
        omega
    · by_cases h2 : c = ']'
      · subst h2
        simp only [resolve_scan, if_neg h1, if_true] at h
        simp only [delta, if_neg h1, if_true] at hs
        cases stack with
        | nil => simp at h
        | cons p stack1 =>
          simp only at h
          obtain ⟨k1, k2, k3, k4, k5⟩ := hst
          simp only [List.length_cons, Nat.cast_add, Nat.cast_one] at hh
          refine ih (pos + 1) stack1 ((p, pos) :: acc) m hd (by omega)
            (stackOK_advance prog pos stack1 k5 (by omega)) ?_ h
          intro x hx
          rcases List.mem_cons.1 hx with hx | hx
          · subst hx
            show Encloses prog p pos
            refine ⟨k1, k2, hc, by omega, ?_⟩
            intro k hk hk1
            have := k4 k hk hk1
            omega
          · exact hacc x hx
      · simp only [resolve_scan, if_neg h1, if_neg h2] at h
        simp only [delta, if_neg h1, if_neg h2] at hs
        exact ih (pos + 1) stack acc m hd (by omega)
          (stackOK_advance prog pos stack hst (by omega)) hacc h

theorem resolve_scan_covers :
    ∀ (rest : List Char) (pos : Nat) (stack : List Nat) (acc m : List (Nat × Nat)),
      resolve_scan rest pos stack acc = some m →
        (∀ x ∈ acc, x ∈ m) ∧ (∀ p ∈ stack, ∃ q, (p, q) ∈ m) ∧
          ∀ i, rest[i]? = some '[' → ∃ q, (pos + i, q) ∈ m := by
  intro rest
  induction rest with
  | nil =>
    intro pos stack acc m h
    cases stack with
    | nil =>
      simp only [resolve_scan, Option.some.injEq] at h
      subst h
      simp
    | cons p stack => simp [resolve_scan] at h
  | cons c rest ih =>
    intro pos stack acc m h
    by_cases h1 : c = '['
    · subst h1
      simp only [resolve_scan, if_true] at h
      obtain ⟨a1, a2, a3⟩ := ih _ _ _ _ h
      refine ⟨a1, fun p hp => a2 p (List.mem_cons_of_mem _ hp), ?_⟩
      intro i hi
      cases i with
      | zero => exact a2 pos (List.mem_cons_self _ _)
      | succ j =>
        have := a3 j (by simpa using hi)
        rwa [Nat.add_assoc, Nat.add_comm 1 j] at this
    · have hrest : ∀ i, (c :: rest)[i]? = some '[' → ∃ j, i = j + 1 ∧ rest[j]? = some '[' := by
        intro i hi
        cases i with
        | zero => simp at hi; exact absurd hi h1
        | succ j => exact ⟨j, rfl, by simpa using hi⟩
      by_cases h2 : c = ']'
      · subst h2
        simp only [resolve_scan, if_neg h1, if_true] at h
        cases stack with
        | nil => simp at h
        | cons p stack1 =>
          simp only at h
          obtain ⟨a1, a2, a3⟩ := ih _ _ _ _ h
          refine ⟨fun x hx => a1 x (List.mem_cons_of_mem _ hx), ?_, ?_⟩
          · intro r hr
            rcases List.mem_cons.1 hr with hr | hr
            · subst hr
              exact ⟨pos, a1 _ (List.mem_cons_self _ _)⟩
            · exact a2 r hr
          · intro i hi
            obtain ⟨j, rfl, hj⟩ := hrest i hi
            have := a3 j hj
            rwa [Nat.add_assoc, Nat.add_comm 1 j] at this
      · simp only [resolve_scan, if_neg h1, if_neg h2] at h
        obtain ⟨a1, a2, a3⟩ := ih _ _ _ _ h
        refine ⟨a1, a2, ?_⟩
        intro i hi
        obtain ⟨j, rfl, hj⟩ := hrest i hi
        have := a3 j hj
        rwa [Nat.add_assoc, Nat.add_comm 1 j] at this

theorem resolve_scan_isSome :
    ∀ (rest : List Char) (pos : Nat) (stack : List Nat) (acc : List (Nat × Nat)),
      (∀ n, n < rest.length + 1 →
          (rest.take n).count ']' ≤ stack.length + (rest.take n).count '[') →
        stack.length + rest.count '[' = rest.count ']' →
          ∃ m, resolve_scan rest pos stack acc = some m := by
  intro rest
  induction rest with
  | nil =>
    intro pos stack acc _ htot
    cases stack with
    | nil => exact ⟨acc, by simp [resolve_scan]⟩
    | cons p stack => simp at htot
  | cons c rest ih =>
    intro pos stack acc hpre htot
    rw [List.length_cons, forall_lt_succ_cons] at hpre
    obtain ⟨-, hpre⟩ := hpre
    simp only [List.take_succ_cons] at hpre
    by_cases h1 : c = '['
    · subst h1
      simp only [resolve_scan, if_true]
      apply ih
      · intro n hn
        have := hpre n hn
        simp at this ⊢
        omega
      · simp at htot ⊢
        omega
    · by_cases h2 : c = ']'
      · subst h2
        simp only [resolve_scan, if_neg h1, if_true]
        cases stack with
        | nil =>
          have := hpre 0 (by omega)
          simp at this
        | cons p stack1 =>
          simp only
          apply ih
          · intro n hn
            have := hpre n hn
            simp at this ⊢
            omega
          · simp at htot ⊢
            omega
      · simp only [resolve_scan, if_neg h1, if_neg h2]
        apply ih
        · intro n hn
          have := hpre n hn
          rw [List.count_cons_of_ne (Ne.symm h2), List.count_cons_of_ne (Ne.symm h1)] at this
          exact this
        · rw [List.count_cons_of_ne (Ne.symm h2), List.count_cons_of_ne (Ne.symm h1)] at htot
          exact htot

theorem resolve_scan_covers_close :
    ∀ (rest : List Char) (pos : Nat) (stack : List Nat) (acc m : List (Nat × Nat)),
      resolve_scan rest pos stack acc = some m →
        ∀ i, rest[i]? = some ']' → ∃ p, (p, pos + i) ∈ m := by
  intro rest
  induction rest with
  | nil =>
    intro pos stack acc m _ i hi
    simp at hi
  | cons c rest ih =>
    intro pos stack acc m h i hi
    by_cases h2 : c = ']'
    · subst h2
      have h1 : ¬ (']' = '[') := by decide
      simp only [resolve_scan, if_neg h1, if_true] at h
      cases stack with
      | nil => simp at h
      | cons p stack1 =>
        simp only at h
        cases i with
        | zero => exact ⟨p, (resolve_scan_covers _ _ _ _ _ h).1 _ (List.mem_cons_self _ _)⟩
        | succ j =>
          have := ih _ _ _ _ h j (by simpa using hi)
          rwa [Nat.add_assoc, Nat.add_comm 1 j] at this
    · have hstep : ∃ stack1 acc1, resolve_scan rest (pos + 1) stack1 acc1 = some m := by
        by_cases h1 : c = '['
        · subst h1
          simp only [resolve_scan, if_true] at h
          exact ⟨_, _, h⟩
        · simp only [resolve_scan, if_neg h1, if_neg h2] at h
          exact ⟨_, _, h⟩
      obtain ⟨stack1, acc1, h1⟩ := hstep
      cases i with
      | zero => simp at hi; exact absurd hi h2
      | succ j =>
        have := ih _ _ _ _ h1 j (by simpa using hi)
        rwa [Nat.add_assoc, Nat.add_comm 1 j] at this

theorem matching_encloses (prog : List Char) (p q : Nat) (h : Matching prog p q) :
    Encloses prog p q := by
  obtain ⟨m, hm, hpq⟩ := h
  exact resolve_scan_encloses prog prog 0 [] [] m rfl (by simp [height_zero]) trivial
    (by simp) hm (p, q) hpq

theorem matching_exists (prog : List Char) (hw : WellNested prog) (p : Nat)
    (hp : prog[p]? = some '[') : ∃ q, Matching prog p q := by
  obtain ⟨m, hm⟩ := resolve_scan_isSome prog 0 [] []
    (fun n hn => by simpa using hw.1 n hn) (by simpa using hw.2)
  obtain ⟨-, -, h3⟩ := resolve_scan_covers prog 0 [] [] m hm
  obtain ⟨q, hq⟩ := h3 p hp
  exact ⟨q, m, hm, by simpa using hq⟩

theorem matching_exists_close (prog : List Char) (hw : WellNested prog) (q : Nat)
    (hq : prog[q]? = some ']') : ∃ p, Matching prog p q := by
  obtain ⟨m, hm⟩ := resolve_scan_isSome prog 0 [] []
    (fun n hn => by simpa using hw.1 n hn) (by simpa using hw.2)
  obtain ⟨p, hp⟩ := resolve_scan_covers_close prog 0 [] [] m hm q hq
  exact ⟨p, m, hm, by simpa using hp⟩

/-! ## The two bracket-counting scans of `execute_instruction` -/

theorem mem_getElem?_of_lt (prog : List Char) (i : Nat) (h : i < prog.length) :
    (mem prog)[i]? = prog[i]? := by
  unfold mem
  exact List.getElem?_append_left h

theorem mem_getElem?_of_some (prog : List Char) (i : Nat) (c : Char) (h : prog[i]? = some c) :
    (mem prog)[i]? = some c := by
  have hi : i < prog.length := by
    by_contra hn
    rw [List.getElem?_eq_none (by omega)] at h
    exact Option.noConfusion h
  rw [mem_getElem?_of_lt prog i hi, h]

theorem mem_getElem?_of_le (prog : List Char) (i : Nat) (h : i ≤ prog.length) :
    ∃ c, (mem prog)[i]? = some c := by
  have : i < (mem prog).length := by simp [mem]; omega
  exact ⟨(mem prog)[i], List.getElem?_eq_getElem this⟩

theorem lt_length_of_getElem? {α : Type} {prog : List α} {i : Nat} {c : α} (h : prog[i]? = some c) :
    i < prog.length := by
  by_contra hn
  rw [List.getElem?_eq_none (by omega)] at h
  exact Option.noConfusion h

theorem mem_drop_eq_cons (prog : List Char) (i : Nat) (c : Char) (h : prog[i]? = some c) :
    (mem prog).drop i = c :: (mem prog).drop (i + 1) := by
  have h1 := mem_getElem?_of_some prog i c h
  have hi : i < (mem prog).length := lt_length_of_getElem? h1
  rw [List.drop_eq_getElem_cons hi]
  rw [List.getElem?_eq_getElem hi] at h1
  simp only [Option.some.injEq] at h1
  rw [h1]

theorem scan_forward_zero (l : List Char) (ip : Nat) : scan_forward l ip 0 = some ip := by
  cases l <;> simp [scan_forward]

theorem scan_backward_zero (prog : List Char) (ip : Nat) :
    scan_backward prog ip 0 = some ip := by
  cases ip <;> simp [scan_backward]

theorem forward_update (c : Char) (count : Int) :
    (if c = '[' then count + 1 else if c = ']' then count - 1 else count) = count + delta c := by
  unfold delta
  by_cases h1 : c = '['
  · simp [h1]
  · by_cases h2 : c = ']'
    · simp [h2]; omega
    · simp [h1, h2]

theorem backward_update (c : Char) (count : Int) :
    (if c = ']' then count + 1 else if c = '[' then count - 1 else count) = count - delta c := by
  unfold delta
  by_cases h1 : c = '['
  · simp [h1]
  · by_cases h2 : c = ']'
    · simp [h2]
    · simp [h1, h2]

theorem scan_forward_encloses (prog : List Char) (p q : Nat) (he : Encloses prog p q) :
    ∀ (d ip : Nat) (count : Int), p ≤ ip → ip + d = q →
      count = height prog (ip + 1) - height prog p →
        scan_forward ((mem prog).drop (ip + 1)) ip count = some q := by
  obtain ⟨hpq, hp, hq, hh, hab⟩ := he
  have hql := lt_length_of_getElem? hq
  intro d
  induction d with
  | zero =>
    intro ip count _ hd hc
    have : ip = q := by omega
    subst this
    have : count = 0 := by omega
    subst this
    exact scan_forward_zero _ _
  | succ d ih =>
    intro ip count hip hd hc
    have hpos : height prog p < height prog (ip + 1) := hab (ip + 1) (by omega) (by omega)
    have hne : count ≠ 0 := by omega
    have hil : ip + 1 < prog.length := by omega
    have hget : prog[ip + 1]? = some prog[ip + 1] := List.getElem?_eq_getElem hil
    rw [mem_drop_eq_cons prog (ip + 1) _ hget]
    simp only [scan_forward, if_pos hne, forward_update]
    refine ih (ip + 1) _ (by omega) (by omega) ?_
    rw [height_succ prog (ip + 1) _ hget]
    omega

theorem scan_backward_encloses (prog : List Char) (p q : Nat) (he : Encloses prog p q) :
    ∀ (ip : Nat) (count : Int), p ≤ ip → ip ≤ q →
      count = height prog ip - height prog p →
        scan_backward prog ip count = some p := by
  obtain ⟨hpq, hp, hq, hh, hab⟩ := he
  have hql := lt_length_of_getElem? hq
  intro ip
  induction ip with
  | zero =>
    intro count h1 _ hc
    have : p = 0 := by omega
    subst this
    have : count = 0 := by omega
    subst this
    exact scan_backward_zero _ _
  | succ j ih =>
    intro count h1 h2 hc
    by_cases hpj : p = j + 1
    · subst hpj
      have : count = 0 := by omega
      subst this
      exact scan_backward_zero _ _
    · have hpos : height prog p < height prog (j + 1) := hab (j + 1) (by omega) h2
      have hne : count ≠ 0 := by omega
      have hjl : j < prog.length := by omega
      have hget : prog[j]? = some prog[j] := List.getElem?_eq_getElem hjl
      simp only [scan_backward, if_pos hne, mem_getElem?_of_some prog j _ hget, backward_update]
      refine ih _ (by omega) (by omega) ?_
      rw [height_succ prog j _ hget] at hc
      omega

theorem load_zero_tape (n : Nat) (dp : Nat) (h : dp < n) :
    load (List.replicate n 0) (dp : Int) = some 0 := by
  unfold load
  simp [h]

theorem execute_instruction_eq (prog : List Char) (loops : Option Loops) (s s1 : State)
    (c c1 : Char) (h0 : (mem prog)[s.ip]? = some c) (h1 : switch_body prog c s = some s1)
    (h2 : (mem prog)[s1.ip + 1]? = some c1) :
    execute_instruction prog loops s =
      some { s1 with
        ip := s1.ip + 1
        is_program_finished := if c1 = NUL then true else s1.is_program_finished } := by
  simp only [execute_instruction, h0, h1, h2]

theorem switch_body_open (prog : List Char) (s : State) (v : Nat)
    (hload : load s.tape s.dp = some v) :
    switch_body prog '[' s =
      if v = 0 then
        match scan_forward ((mem prog).drop (s.ip + 1)) s.ip 1 with
        | none => none
        | some ip => some { s with ip := ip }
      else some s := by
  simp [switch_body, hload]

theorem switch_body_close (prog : List Char) (s : State) (v : Nat)
    (hload : load s.tape s.dp = some v) :
    switch_body prog ']' s =
      if v ≠ 0 then
        match scan_backward prog s.ip 1 with
        | none => none
        | some ip => some { s with ip := ip }
      else some s := by
  simp [switch_body, hload]

/-! ## Per-instruction equations and the frame property of the tape -/

theorem load_append (t z : List Nat) (dp : Int) (v : Nat) (h : load t dp = some v) :
    load (t ++ z) dp = some v := by
  unfold load at h ⊢
  by_cases h0 : 0 ≤ dp
  · rw [if_pos h0] at h ⊢
    rw [List.getElem?_append_left (lt_length_of_getElem? h), h]
  · rw [if_neg h0] at h
    exact Option.noConfusion h

theorem store_append (t z t1 : List Nat) (dp : Int) (v : Nat) (h : store t dp v = some t1) :
    store (t ++ z) dp v = some (t1 ++ z) := by
  unfold store at h ⊢
  by_cases h0 : 0 ≤ dp
  · rw [if_pos h0] at h ⊢
    cases hg : t[dp.toNat]? with
    | none => rw [hg] at h; exact Option.noConfusion h
    | some w =>
      rw [hg] at h
      simp only [Option.map_some', Option.some.injEq] at h
      have hl := lt_length_of_getElem? hg
      rw [List.getElem?_append_left hl, hg, ← h]
      simp [List.set_append_left _ _ hl]
  · rw [if_neg h0] at h
    exact Option.noConfusion h

theorem store_of_load (t : List Nat) (dp : Int) (v w : Nat) (h : load t dp = some v) :
    ∃ t1, store t dp w = some t1 ∧ load t1 dp = some w := by
  unfold load at h
  unfold store
  by_cases h0 : 0 ≤ dp
  · rw [if_pos h0] at h ⊢
    have hl := lt_length_of_getElem? h
    refine ⟨t.set dp.toNat w, by rw [h]; rfl, ?_⟩
    unfold load
    rw [if_pos h0]
    exact List.getElem?_set_self hl
  · rw [if_neg h0] at h
    exact Option.noConfusion h

theorem switch_body_right (prog : List Char) (s : State) :
    switch_body prog '>' s = some { s with dp := s.dp + 1 } := rfl

theorem switch_body_left (prog : List Char) (s : State) :
    switch_body prog '<' s = some { s with dp := s.dp - 1 } := rfl

theorem switch_body_plus (prog : List Char) (s : State) :
    switch_body prog '+' s =
      match load s.tape s.dp with
      | none => none
      | some v =>
        match store s.tape s.dp ((v + 1) % 256) with
        | none => none
        | some tape => some { s with tape := tape } := rfl

theorem switch_body_minus (prog : List Char) (s : State) :
    switch_body prog '-' s =
      match load s.tape s.dp with
      | none => none
      | some v =>
        match store s.tape s.dp ((v + 255) % 256) with
        | none => none
        | some tape => some { s with tape := tape } := rfl

theorem switch_body_dot (prog : List Char) (s : State) :
    switch_body prog '.' s =
      match load s.tape s.dp with
      | none => none
      | some v => some { s with output := s.output ++ [v] } := rfl

theorem switch_body_comma (prog : List Char) (s : State) :
    switch_body prog ',' s =
      match store s.tape s.dp (to_uint8 (getchar s.input).1) with
      | none => none
      | some tape => some { s with tape := tape, input := (getchar s.input).2 } := rfl

theorem switch_body_other (prog : List Char) (c : Char) (s : State)
    (h1 : c ≠ '>') (h2 : c ≠ '<') (h3 : c ≠ '+') (h4 : c ≠ '-') (h5 : c ≠ '.') (h6 : c ≠ ',')
    (h7 : c ≠ '[') (h8 : c ≠ ']') : switch_body prog c s = some s := by
  simp only [switch_body, if_neg h1, if_neg h2, if_neg h3, if_neg h4, if_neg h5, if_neg h6,
    if_neg h7, if_neg h8]

theorem switch_body_append (prog : List Char) (c : Char) (s s1 : State) (z : List Nat)
    (h : switch_body prog c s = some s1) :
    switch_body prog c (s.extend z) = some (s1.extend z) := by
  by_cases h1 : c = '>'
  · subst h1
    rw [switch_body_right] at h ⊢
    simp only [Option.some.injEq] at h; subst h; rfl
  by_cases h2 : c = '<'
  · subst h2
    rw [switch_body_left] at h ⊢
    simp only [Option.some.injEq] at h; subst h; rfl
  by_cases h3 : c = '+'
  · subst h3
    rw [switch_body_plus] at h ⊢
    cases hl : load s.tape s.dp with
    | none => simp [hl] at h
    | some v =>
      simp only [hl] at h
      cases hs : store s.tape s.dp ((v + 1) % 256) with
      | none => simp [hs] at h
      | some t =>
        simp only [hs, Option.some.injEq] at h
        subst h
        simp only [State.extend, load_append _ z _ _ hl, store_append _ z _ _ _ hs]
  by_cases h4 : c = '-'
  · subst h4
    rw [switch_body_minus] at h ⊢
    cases hl : load s.tape s.dp with
    | none => simp [hl] at h
    | some v =>
      simp only [hl] at h
      cases hs : store s.tape s.dp ((v + 255) % 256) with
      | none => simp [hs] at h
      | some t =>
        simp only [hs, Option.some.injEq] at h
        subst h
        simp only [State.extend, load_append _ z _ _ hl, store_append _ z _ _ _ hs]
  by_cases h5 : c = '.'
  · subst h5
    rw [switch_body_dot] at h ⊢
    cases hl : load s.tape s.dp with
    | none => simp [hl] at h
    | some v =>
      simp only [hl, Option.some.injEq] at h
      subst h
      simp only [State.extend, load_append _ z _ _ hl]
  by_cases h6 : c = ','
  · subst h6
    rw [switch_body_comma] at h ⊢
    cases hs : store s.tape s.dp (to_uint8 (getchar s.input).1) with
    | none => simp [hs] at h
    | some t =>
      simp only [hs, Option.some.injEq] at h
      subst h
      simp only [State.extend, store_append _ z _ _ _ hs]
  by_cases h7 : c = '['
  · subst h7
    cases hl : load s.tape s.dp with
    | none => simp [switch_body, hl] at h
    | some v =>
      have hl1 : load (s.extend z).tape (s.extend z).dp = some v := load_append _ z _ _ hl
      rw [switch_body_open prog s v hl] at h
      rw [switch_body_open prog _ v hl1]
      by_cases hv : v = 0
      · rw [if_pos hv] at h ⊢
        cases hsc : scan_forward ((mem prog).drop (s.ip + 1)) s.ip 1 with
        | none => simp [hsc] at h
        | some ip =>
          simp only [hsc, Option.some.injEq] at h
          subst h
          simp only [State.extend, hsc]
      · rw [if_neg hv] at h ⊢
        simp only [Option.some.injEq] at h; subst h; rfl
  by_cases h8 : c = ']'
  · subst h8
    cases hl : load s.tape s.dp with
    | none => simp [switch_body, hl] at h
    | some v =>
      have hl1 : load (s.extend z).tape (s.extend z).dp = some v := load_append _ z _ _ hl
      rw [switch_body_close prog s v hl] at h
      rw [switch_body_close prog _ v hl1]
      by_cases hv : v ≠ 0
      · rw [if_pos hv] at h ⊢
        cases hsc : scan_backward prog s.ip 1 with
        | none => simp [hsc] at h
        | some ip =>
          simp only [hsc, Option.some.injEq] at h
          subst h
          simp only [State.extend, hsc]
      · rw [if_neg hv] at h ⊢
        simp only [Option.some.injEq] at h; subst h; rfl
  rw [switch_body_other prog c _ h1 h2 h3 h4 h5 h6 h7 h8] at h ⊢
  simp only [Option.some.injEq] at h; subst h; rfl

theorem execute_instruction_append (prog : List Char) (loops : Option Loops) (s s1 : State)
    (z : List Nat) (h : execute_instruction prog loops s = some s1) :
    execute_instruction prog loops (s.extend z) = some (s1.extend z) := by
  unfold execute_instruction at h
  simp only at h
  cases h0 : (mem prog)[s.ip]? with
  | none => simp [h0] at h
  | some c =>
    simp only [h0] at h
    cases hsw : switch_body prog c s with
    | none => simp [hsw] at h
    | some s2 =>
      simp only [hsw] at h
      cases h2 : (mem prog)[s2.ip + 1]? with
      | none => simp [h2] at h
      | some c1 =>
        simp only [h2, Option.some.injEq] at h
        subst h
        exact execute_instruction_eq prog loops (s.extend z) (s2.extend z) c c1 h0
          (switch_body_append prog c s s2 z hsw) h2

theorem run_append (prog : List Char) (loops : Option Loops) (z : List Nat) :
    ∀ (n : Nat) (s s1 : State), run prog loops n s = some s1 →
      run prog loops n (s.extend z) = some (s1.extend z) := by
  intro n
  induction n with
  | zero =>
    intro s s1 h
    simp only [run, Option.some.injEq] at h ⊢
    rw [h]
  | succ n ih =>
    intro s s1 h
    simp only [run] at h ⊢
    by_cases hf : s.is_program_finished = true
    · have hf1 : (s.extend z).is_program_finished = true := hf
      rw [if_pos hf] at h
      rw [if_pos hf1]
      simp only [Option.some.injEq] at h ⊢
      rw [h]
    · have hf1 : ¬ (s.extend z).is_program_finished = true := hf
      rw [if_neg hf] at h
      rw [if_neg hf1]
      cases he : execute_instruction prog loops s with
      | none => simp [he] at h
      | some s2 =>
        simp only [he] at h
        rw [execute_instruction_append prog loops s s2 z he]
        exact ih s2 s1 h

theorem switch_body_with_input (prog : List Char) (c : Char) (s : State) (i : List Nat)
    (hc : c ≠ ',') :
    switch_body prog c (s.with_input i) = (switch_body prog c s).map (fun t => t.with_input i) := by
  by_cases h1 : c = '>'
  · subst h1; rfl
  by_cases h2 : c = '<'
  · subst h2; rfl
  by_cases h3 : c = '+'
  · subst h3
    rw [switch_body_plus, switch_body_plus]
    simp only [State.with_input]
    cases load s.tape s.dp with
    | none => rfl
    | some v =>
      dsimp only
      cases store s.tape s.dp ((v + 1) % 256) <;> rfl
  by_cases h4 : c = '-'
  · subst h4
    rw [switch_body_minus, switch_body_minus]
    simp only [State.with_input]
    cases load s.tape s.dp with
    | none => rfl
    | some v =>
      dsimp only
      cases store s.tape s.dp ((v + 255) % 256) <;> rfl
  by_cases h5 : c = '.'
  · subst h5
    rw [switch_body_dot, switch_body_dot]
    simp only [State.with_input]
    cases load s.tape s.dp <;> rfl
  by_cases h7 : c = '['
  · subst h7
    cases hl : load s.tape s.dp with
    | none => simp [switch_body, State.with_input, hl]
    | some v =>
      have hl1 : load (s.with_input i).tape (s.with_input i).dp = some v := hl
      rw [switch_body_open prog s v hl, switch_body_open prog _ v hl1]
      by_cases hv : v = 0
      · rw [if_pos hv, if_pos hv]
        simp only [State.with_input]
        cases scan_forward ((mem prog).drop (s.ip + 1)) s.ip 1 <;> rfl
      · rw [if_neg hv, if_neg hv]; rfl
  by_cases h8 : c = ']'
  · subst h8
    cases hl : load s.tape s.dp with
    | none => simp [switch_body, State.with_input, hl]
    | some v =>
      have hl1 : load (s.with_input i).tape (s.with_input i).dp = some v := hl
      rw [switch_body_close prog s v hl, switch_body_close prog _ v hl1]
      by_cases hv : v ≠ 0
      · rw [if_pos hv, if_pos hv]
        simp only [State.with_input]
        cases scan_backward prog s.ip 1 <;> rfl
      · rw [if_neg hv, if_neg hv]; rfl
  rw [switch_body_other prog c _ h1 h2 h3 h4 h5 hc h7 h8,
    switch_body_other prog c _ h1 h2 h3 h4 h5 hc h7 h8]
  rfl

theorem execute_instruction_with_input (prog : List Char) (loops : Option Loops) (s s1 : State)
    (i : List Nat) (hc : (mem prog)[s.ip]? ≠ some ',')
    (h : execute_instruction prog loops s = some s1) :
    execute_instruction prog loops (s.with_input i) = some (s1.with_input i) := by
  unfold execute_instruction at h
  simp only at h
  cases h0 : (mem prog)[s.ip]? with
  | none => simp [h0] at h
  | some c =>
    simp only [h0] at h
    have hc1 : c ≠ ',' := fun e => hc (by rw [h0, e])
    cases hsw : switch_body prog c s with
    | none => simp [hsw] at h
    | some s2 =>
      simp only [hsw] at h
      cases h2 : (mem prog)[s2.ip + 1]? with
      | none => simp [h2] at h
      | some c1 =>
        simp only [h2, Option.some.injEq] at h
        subst h
        exact execute_instruction_eq prog loops (s.with_input i) (s2.with_input i) c c1 h0
          (by rw [switch_body_with_input prog c s i hc1, hsw]; rfl) h2

theorem mem_no_comma (prog : List Char) (hc : ',' ∉ prog) (ip : Nat) :
    (mem prog)[ip]? ≠ some ',' := by
  intro h
  have := List.getElem?_mem h
  simp only [mem, List.mem_append, List.mem_singleton] at this
  rcases this with h1 | h1
  · exact hc h1
  · exact absurd h1 (by decide)

theorem run_with_input (prog : List Char) (loops : Option Loops) (i : List Nat)
    (hc : ',' ∉ prog) :
    ∀ (n : Nat) (s s1 : State), run prog loops n s = some s1 →
      run prog loops n (s.with_input i) = some (s1.with_input i) := by
  intro n
  induction n with
  | zero =>
    intro s s1 h
    simp only [run, Option.some.injEq] at h ⊢
    rw [h]
  | succ n ih =>
    intro s s1 h
    simp only [run] at h ⊢
    by_cases hf : s.is_program_finished = true
    · have hf1 : (s.with_input i).is_program_finished = true := hf
      rw [if_pos hf] at h
      rw [if_pos hf1]
      simp only [Option.some.injEq] at h ⊢
      rw [h]
    · have hf1 : ¬ (s.with_input i).is_program_finished = true := hf
      rw [if_neg hf] at h
      rw [if_neg hf1]
      cases he : execute_instruction prog loops s with
      | none => simp [he] at h
      | some s2 =>
        simp only [he] at h
        rw [execute_instruction_with_input prog loops s s2 i (mem_no_comma prog hc _) he]
        exact ih s2 s1 h

theorem run_loops (prog : List Char) (l1 l2 : Option Loops) :
    ∀ (n : Nat) (s : State), run prog l1 n s = run prog l2 n s := by
  intro n
  induction n with
  | zero => intro s; rfl
  | succ n ih =>
    intro s
    simp only [run]
    have : execute_instruction prog l1 s = execute_instruction prog l2 s := rfl
    rw [this]
    cases execute_instruction prog l2 s with
    | none => rfl
    | some s2 => simp only [ih]

theorem zero_tape_split (k : Nat) (h : k ≤ DATA_ARRAY_SIZE) :
    zero_tape = List.replicate k 0 ++ List.replicate (DATA_ARRAY_SIZE - k) 0 := by
  unfold zero_tape
  rw [← List.replicate_add]
  congr 1
  omega

/-! ## Concrete runs on a short tape -/

set_option maxRecDepth 100000 in
theorem hello_small :
    run hello_world none 906 (initial_state (List.replicate 8 0) []) =
      some ⟨106, 6, [0, 0, 72, 100, 87, 33, 10, 0], [],
        [72, 101, 108, 108, 111, 32, 87, 111, 114, 108, 100, 33, 10], true⟩ := by
  decide

theorem run_plus (prog : List Char) (loops : Option Loops) :
    ∀ (n : Nat) (s : State) (c : Nat), c < 256 → load s.tape s.dp = some c →
      s.is_program_finished = false → (∀ k, k < n → prog[s.ip + k]? = some '+') →
        ∃ s1, run prog loops n s = some s1 ∧ s1.ip = s.ip + n ∧ s1.dp = s.dp ∧
          load s1.tape s1.dp = some ((c + n) % 256) := by
  intro n
  induction n with
  | zero =>
    intro s c hc hload _ _
    exact ⟨s, rfl, rfl, rfl, by rw [hload, Nat.add_zero, Nat.mod_eq_of_lt hc]⟩
  | succ n ih =>
    intro s c hc hload hfin hplus
    have h0 : prog[s.ip]? = some '+' := hplus 0 (by omega)
    obtain ⟨c1, hc1⟩ := mem_getElem?_of_le prog (s.ip + 1) (lt_length_of_getElem? h0)
    obtain ⟨t, ht, hlt⟩ := store_of_load s.tape s.dp c ((c + 1) % 256) hload
    have hsw : switch_body prog '+' s = some { s with tape := t } := by
      rw [switch_body_plus, hload]
      simp only [ht]
    have hstep := execute_instruction_eq prog loops s _ _ c1
      (mem_getElem?_of_some prog _ _ h0) hsw hc1
    have hrun : run prog loops (n + 1) s = run prog loops n
        { ip := s.ip + 1, dp := s.dp, tape := t, input := s.input, output := s.output,
          is_program_finished := if c1 = NUL then true else s.is_program_finished } := by
      simp only [run, hfin, hstep]
      rfl
    rw [hrun]
    cases n with
    | zero => exact ⟨_, rfl, rfl, rfl, hlt⟩
    | succ m =>
      have h1 : prog[s.ip + 1]? = some '+' := hplus 1 (by omega)
      have hc1p : c1 = '+' := by
        have := mem_getElem?_of_some prog _ _ h1
        rw [hc1] at this
        exact Option.some.inj this
      have hne : ¬ (c1 = NUL) := by rw [hc1p]; decide
      obtain ⟨s1, a1, a2, a3, a4⟩ := ih
        { ip := s.ip + 1, dp := s.dp, tape := t, input := s.input, output := s.output,
          is_program_finished := if c1 = NUL then true else s.is_program_finished }
        ((c + 1) % 256) (Nat.mod_lt _ (by decide)) hlt (by simp only [if_neg hne, hfin])
        (fun k hk => by
          have := hplus (k + 1) (by omega)
          simp only at this ⊢
          rwa [Nat.add_assoc, Nat.add_comm 1 k])
      refine ⟨s1, a1, ?_, a3, ?_⟩
      · rw [a2]; simp only; omega
      · rw [a4]; congr 1; omega

set_option maxRecDepth 100000 in
theorem plus_256_dot_small :
    run (List.replicate 256 '+' ++ ['.']) none 257 (initial_state (List.replicate 1 0) []) =
      some ⟨257, 0, [0], [], [0], true⟩ := by
  decide

/-! ## Inversion of a step -/

theorem execute_instruction_some (prog : List Char) (loops : Option Loops) (s s1 : State)
    (h : execute_instruction prog loops s = some s1) :
    ∃ c s2 c1, (mem prog)[s.ip]? = some c ∧ switch_body prog c s = some s2 ∧
      (mem prog)[s2.ip + 1]? = some c1 ∧
        s1 = { s2 with
          ip := s2.ip + 1
          is_program_finished := if c1 = NUL then true else s2.is_program_finished } := by
  unfold execute_instruction at h
  simp only at h
  cases h0 : (mem prog)[s.ip]? with
  | none => simp [h0] at h
  | some c =>
    simp only [h0] at h
    cases hsw : switch_body prog c s with
    | none => simp [hsw] at h
    | some s2 =>
      simp only [hsw] at h
      cases h2 : (mem prog)[s2.ip + 1]? with
      | none => simp [h2] at h
      | some c1 =>
        simp only [h2, Option.some.injEq] at h
        exact ⟨c, s2, c1, rfl, hsw, h2, h.symm⟩

theorem switch_body_some (prog : List Char) (c : Char) (s s2 : State)
    (h : switch_body prog c s = some s2) :
    (c = '>' ∧ s2 = { s with dp := s.dp + 1 }) ∨
    (c = '<' ∧ s2 = { s with dp := s.dp - 1 }) ∨
    (c = '+' ∧ ∃ v t, load s.tape s.dp = some v ∧
      store s.tape s.dp ((v + 1) % 256) = some t ∧ s2 = { s with tape := t }) ∨
    (c = '-' ∧ ∃ v t, load s.tape s.dp = some v ∧
      store s.tape s.dp ((v + 255) % 256) = some t ∧ s2 = { s with tape := t }) ∨
    (c = '.' ∧ ∃ v, load s.tape s.dp = some v ∧ s2 = { s with output := s.output ++ [v] }) ∨
    (c = ',' ∧ ∃ t, store s.tape s.dp (to_uint8 (getchar s.input).1) = some t ∧
      s2 = { s with tape := t, input := (getchar s.input).2 }) ∨
    (c = '[' ∧ ∃ v, load s.tape s.dp = some v ∧
      ((v = 0 ∧ ∃ ip, scan_forward ((mem prog).drop (s.ip + 1)) s.ip 1 = some ip ∧
          s2 = { s with ip := ip }) ∨
        (v ≠ 0 ∧ s2 = s))) ∨
    (c = ']' ∧ ∃ v, load s.tape s.dp = some v ∧
      ((v ≠ 0 ∧ ∃ ip, scan_backward prog s.ip 1 = some ip ∧ s2 = { s with ip := ip }) ∨
        (v = 0 ∧ s2 = s))) ∨
    (c ≠ '>' ∧ c ≠ '<' ∧ c ≠ '+' ∧ c ≠ '-' ∧ c ≠ '.' ∧ c ≠ ',' ∧ c ≠ '[' ∧ c ≠ ']' ∧
      s2 = s) := by
  by_cases h1 : c = '>'
  · subst h1
    rw [switch_body_right] at h
    exact Or.inl ⟨rfl, (Option.some.inj h).symm⟩
  by_cases h2 : c = '<'
  · subst h2
    rw [switch_body_left] at h
    exact Or.inr (Or.inl ⟨rfl, (Option.some.inj h).symm⟩)
  by_cases h3 : c = '+'
  · subst h3
    rw [switch_body_plus] at h
    cases hl : load s.tape s.dp with
    | none => simp [hl] at h
    | some v =>
      simp only [hl] at h
      cases hs : store s.tape s.dp ((v + 1) % 256) with
      | none => simp [hs] at h
      | some t =>
        simp only [hs, Option.some.injEq] at h
        exact Or.inr (Or.inr (Or.inl ⟨rfl, v, t, rfl, hs, h.symm⟩))
  by_cases h4 : c = '-'
  · subst h4
    rw [switch_body_minus] at h
    cases hl : load s.tape s.dp with
    | none => simp [hl] at h
    | some v =>
      simp only [hl] at h
      cases hs : store s.tape s.dp ((v + 255) % 256) with
      | none => simp [hs] at h
      | some t =>
        simp only [hs, Option.some.injEq] at h
        exact Or.inr (Or.inr (Or.inr (Or.inl ⟨rfl, v, t, rfl, hs, h.symm⟩)))
  by_cases h5 : c = '.'
  · subst h5
    rw [switch_body_dot] at h
    cases hl : load s.tape s.dp with
    | none => simp [hl] at h
    | some v =>
      simp only [hl, Option.some.injEq] at h
      exact Or.inr (Or.inr (Or.inr (Or.inr (Or.inl ⟨rfl, v, rfl, h.symm⟩))))
  by_cases h6 : c = ','
  · subst h6
    rw [switch_body_comma] at h
    cases hs : store s.tape s.dp (to_uint8 (getchar s.input).1) with
    | none => simp [hs] at h
    | some t =>
      simp only [hs, Option.some.injEq] at h
      exact Or.inr (Or.inr (Or.inr (Or.inr (Or.inr (Or.inl ⟨rfl, t, rfl, h.symm⟩)))))
  by_cases h7 : c = '['
  · subst h7
    cases hl : load s.tape s.dp with
    | none => simp [switch_body, hl] at h
    | some v =>
      rw [switch_body_open prog s v hl] at h
      refine Or.inr (Or.inr (Or.inr (Or.inr (Or.inr (Or.inr (Or.inl ⟨rfl, v, rfl, ?_⟩))))))
      by_cases hv : v = 0
      · rw [if_pos hv] at h
        cases hsc : scan_forward ((mem prog).drop (s.ip + 1)) s.ip 1 with
        | none => simp [hsc] at h
        | some ip =>
          simp only [hsc, Option.some.injEq] at h
          exact Or.inl ⟨hv, ip, rfl, h.symm⟩
      · rw [if_neg hv] at h
        exact Or.inr ⟨hv, (Option.some.inj h).symm⟩
  by_cases h8 : c = ']'
  · subst h8
    cases hl : load s.tape s.dp with
    | none => simp [switch_body, hl] at h
    | some v =>
      rw [switch_body_close prog s v hl] at h
      refine Or.inr (Or.inr (Or.inr (Or.inr (Or.inr (Or.inr (Or.inr (Or.inl
        ⟨rfl, v, rfl, ?_⟩)))))))
      by_cases hv : v ≠ 0
      · rw [if_pos hv] at h
        cases hsc : scan_backward prog s.ip 1 with
        | none => simp [hsc] at h
        | some ip =>
          simp only [hsc, Option.some.injEq] at h
          exact Or.inl ⟨hv, ip, rfl, h.symm⟩
      · rw [if_neg hv] at h
        exact Or.inr ⟨not_not.1 hv, (Option.some.inj h).symm⟩
  rw [switch_body_other prog c _ h1 h2 h3 h4 h5 h6 h7 h8] at h
  exact Or.inr (Or.inr (Or.inr (Or.inr (Or.inr (Or.inr (Or.inr (Or.inr
    ⟨h1, h2, h3, h4, h5, h6, h7, h8, (Option.some.inj h).symm⟩)))))))

theorem store_frame (t t1 : List Nat) (dp : Int) (v : Nat) (h : store t dp v = some t1) :
    t1.length = t.length ∧ ∀ i : Nat, (i : Int) ≠ dp → t1[i]? = t[i]? := by
  unfold store at h
  by_cases h0 : 0 ≤ dp
  · rw [if_pos h0] at h
    cases hg : t[dp.toNat]? with
    | none => rw [hg] at h; exact Option.noConfusion h
    | some w =>
      rw [hg] at h
      simp only [Option.map_some', Option.some.injEq] at h
      subst h
      refine ⟨List.length_set _ _ _, fun i hi => ?_⟩
      exact List.getElem?_set_ne (by omega)
  · rw [if_neg h0] at h
    exact Option.noConfusion h

theorem run_of_finished (prog : List Char) (loops : Option Loops) (s : State)
    (hf : s.is_program_finished = true) : ∀ k, run prog loops k s = some s := by
  intro k
  cases k with
  | zero => rfl
  | succ k => simp only [run, hf, if_true]

theorem run_stable (prog : List Char) (loops : Option Loops) :
    ∀ (n : Nat) (s s1 : State), run prog loops n s = some s1 →
      s1.is_program_finished = true → ∀ k, run prog loops (n + k) s = some s1 := by
  intro n
  induction n with
  | zero =>
    intro s s1 h hf k
    simp only [run, Option.some.injEq] at h
    subst h
    exact run_of_finished prog loops s hf _
  | succ n ih =>
    intro s s1 h hf k
    rw [Nat.add_right_comm]
    simp only [run] at h ⊢
    by_cases hs : s.is_program_finished = true
    · rw [if_pos hs] at h ⊢
      exact h
    · rw [if_neg hs] at h ⊢
      cases he : execute_instruction prog loops s with
      | none => simp [he] at h
      | some s2 =>
        simp only [he] at h ⊢
        exact ih s2 s1 h hf k

theorem mem_nul_iff (prog : List Char) (hnul : NUL ∉ prog) (k : Nat) (c : Char)
    (h : (mem prog)[k]? = some c) : c = NUL ↔ k = prog.length := by
  by_cases hk : k < prog.length
  · rw [mem_getElem?_of_lt prog k hk] at h
    constructor
    · intro hc
      subst hc
      exact absurd (List.getElem?_mem h) hnul
    · intro hc
      omega
  · have hl := lt_length_of_getElem? h
    simp only [mem, List.length_append, List.length_singleton] at hl
    have hk1 : k = prog.length := by omega
    subst hk1
    simp only [mem] at h
    rw [List.getElem?_append_right (Nat.le_refl _)] at h
    simp at h
    exact ⟨fun _ => rfl, fun _ => h.symm⟩

/-! ## Runs in the memory around the tape -/

theorem load_holds (tape : List Nat) (m : Int → Nat) (dp : Int) (v : Nat)
    (hm : HoldsTape m tape) (h : load tape dp = some v) : m dp = v := by
  unfold load at h
  by_cases h0 : 0 ≤ dp
  · rw [if_pos h0] at h
    have := hm dp.toNat v h
    rwa [Int.toNat_of_nonneg h0] at this
  · rw [if_neg h0] at h
    exact Option.noConfusion h

theorem store_holds (tape t : List Nat) (m : Int → Nat) (dp : Int) (w : Nat)
    (hm : HoldsTape m tape) (h : store tape dp w = some t) :
    HoldsTape (Function.update m dp w) t := by
  unfold store at h
  by_cases h0 : 0 ≤ dp
  · rw [if_pos h0] at h
    cases hg : tape[dp.toNat]? with
    | none => rw [hg] at h; exact Option.noConfusion h
    | some u =>
      rw [hg] at h
      simp only [Option.map_some', Option.some.injEq] at h
      subst h
      intro i v hi
      by_cases e : dp.toNat = i
      · subst e
        have hl := lt_length_of_getElem? hg
        rw [List.getElem?_set_self hl] at hi
        obtain rfl := Option.some.inj hi
        rw [Int.toNat_of_nonneg h0, Function.update_same]
      · rw [List.getElem?_set_ne e] at hi
        have hne : (i : Int) ≠ dp := by omega
        rw [Function.update_noteq hne]
        exact hm i v hi
  · rw [if_neg h0] at h
    exact Option.noConfusion h

theorem switch_body_flat_right (prog : List Char) (f : FlatState) :
    switch_body_flat prog '>' f = some { f with dp := f.dp + 1 } := rfl

theorem switch_body_flat_left (prog : List Char) (f : FlatState) :
    switch_body_flat prog '<' f = some { f with dp := f.dp - 1 } := rfl

theorem switch_body_flat_plus (prog : List Char) (f : FlatState) :
    switch_body_flat prog '+' f =
      some { f with memory := Function.update f.memory f.dp ((f.memory f.dp + 1) % 256) } :=
  rfl

theorem switch_body_flat_minus (prog : List Char) (f : FlatState) :
    switch_body_flat prog '-' f =
      some { f with memory := Function.update f.memory f.dp ((f.memory f.dp + 255) % 256) } :=
  rfl

theorem switch_body_flat_dot (prog : List Char) (f : FlatState) :
    switch_body_flat prog '.' f = some { f with output := f.output ++ [f.memory f.dp] } := rfl

theorem switch_body_flat_comma (prog : List Char) (f : FlatState) :
    switch_body_flat prog ',' f =
      some { f with
        memory := Function.update f.memory f.dp (to_uint8 (getchar f.input).1)
        input := (getchar f.input).2 } := rfl

theorem switch_body_flat_open (prog : List Char) (f : FlatState) :
    switch_body_flat prog '[' f =
      if f.memory f.dp = 0 then
        match scan_forward ((mem prog).drop (f.ip + 1)) f.ip 1 with
        | none => none
        | some ip => some { f with ip := ip }
      else some f := rfl

theorem switch_body_flat_close (prog : List Char) (f : FlatState) :
    switch_body_flat prog ']' f =
      if f.memory f.dp ≠ 0 then
        match scan_backward prog f.ip 1 with
        | none => none
        | some ip => some { f with ip := ip }
      else some f := rfl

theorem switch_body_flat_other (prog : List Char) (c : Char) (f : FlatState)
    (h1 : c ≠ '>') (h2 : c ≠ '<') (h3 : c ≠ '+') (h4 : c ≠ '-') (h5 : c ≠ '.') (h6 : c ≠ ',')
    (h7 : c ≠ '[') (h8 : c ≠ ']') : switch_body_flat prog c f = some f := by
  simp only [switch_body_flat, if_neg h1, if_neg h2, if_neg h3, if_neg h4, if_neg h5,
    if_neg h6, if_neg h7, if_neg h8]

theorem execute_instruction_flat_eq (prog : List Char) (loops : Option Loops)
    (f f1 : FlatState) (c c1 : Char) (h0 : (mem prog)[f.ip]? = some c)
    (h1 : switch_body_flat prog c f = some f1) (h2 : (mem prog)[f1.ip + 1]? = some c1) :
    execute_instruction_flat prog loops f =
      some { f1 with
        ip := f1.ip + 1
        is_program_finished := if c1 = NUL then true else f1.is_program_finished } := by
  simp only [execute_instruction_flat, h0, h1, h2]

theorem switch_body_flat_agrees (prog : List Char) (c : Char) (s s2 : State) (f : FlatState)
    (h : switch_body prog c s = some s2) (ha : Agrees s f) :
    ∃ f2, switch_body_flat prog c f = some f2 ∧ Agrees s2 f2 := by
  obtain ⟨a1, a2, a3, a4, a5, a6⟩ := ha
  rcases switch_body_some prog c s s2 h with
    ⟨rfl, rfl⟩ | ⟨rfl, rfl⟩ | ⟨rfl, v, t, hl, hs, rfl⟩ | ⟨rfl, v, t, hl, hs, rfl⟩ |
    ⟨rfl, v, hl, rfl⟩ | ⟨rfl, t, hs, rfl⟩ |
    ⟨rfl, v, hl, ⟨hv, ip, hsc, rfl⟩ | ⟨hv, rfl⟩⟩ |
    ⟨rfl, v, hl, ⟨hv, ip, hsc, rfl⟩ | ⟨hv, rfl⟩⟩ |
    ⟨h1, h2, h3, h4, h5, h6, h7, h8, rfl⟩
  · exact ⟨_, switch_body_flat_right prog f, a1, by show f.dp + 1 = s.dp + 1; rw [a2],
      a3, a4, a5, a6⟩
  · exact ⟨_, switch_body_flat_left prog f, a1, by show f.dp - 1 = s.dp - 1; rw [a2],
      a3, a4, a5, a6⟩
  · refine ⟨_, switch_body_flat_plus prog f, a1, a2, a3, a4, a5, ?_⟩
    show HoldsTape (Function.update f.memory f.dp ((f.memory f.dp + 1) % 256)) t
    rw [a2, load_holds _ _ _ _ a6 hl]
    exact store_holds _ _ _ _ _ a6 hs
  · refine ⟨_, switch_body_flat_minus prog f, a1, a2, a3, a4, a5, ?_⟩
    show HoldsTape (Function.update f.memory f.dp ((f.memory f.dp + 255) % 256)) t
    rw [a2, load_holds _ _ _ _ a6 hl]
    exact store_holds _ _ _ _ _ a6 hs
  · refine ⟨_, switch_body_flat_dot prog f, a1, a2, a3, ?_, a5, a6⟩
    show f.output ++ [f.memory f.dp] = s.output ++ [v]
    rw [a2, a4, load_holds _ _ _ _ a6 hl]
  · refine ⟨_, switch_body_flat_comma prog f, a1, a2, ?_, a4, a5, ?_⟩
    · show (getchar f.input).2 = (getchar s.input).2
      rw [a3]
    · show HoldsTape (Function.update f.memory f.dp (to_uint8 (getchar f.input).1)) t
      rw [a2, a3]
      exact store_holds _ _ _ _ _ a6 hs
  · have hm : f.memory f.dp = 0 := by rw [a2, load_holds _ _ _ _ a6 hl, hv]
    refine ⟨{ f with ip := ip }, ?_, rfl, a2, a3, a4, a5, a6⟩
    rw [switch_body_flat_open, if_pos hm, a1, hsc]
  · have hm : ¬ f.memory f.dp = 0 := by rw [a2, load_holds _ _ _ _ a6 hl]; exact hv
    exact ⟨f, by rw [switch_body_flat_open, if_neg hm], a1, a2, a3, a4, a5, a6⟩
  · have hm : f.memory f.dp ≠ 0 := by rw [a2, load_holds _ _ _ _ a6 hl]; exact hv
    refine ⟨{ f with ip := ip }, ?_, rfl, a2, a3, a4, a5, a6⟩
    rw [switch_body_flat_close, if_pos hm, a1, hsc]
  · have hm : ¬ f.memory f.dp ≠ 0 := by
      rw [a2, load_holds _ _ _ _ a6 hl, hv]; exact fun e => e rfl
    exact ⟨f, by rw [switch_body_flat_close, if_neg hm], a1, a2, a3, a4, a5, a6⟩
  · exact ⟨f, switch_body_flat_other prog c f h1 h2 h3 h4 h5 h6 h7 h8, a1, a2, a3, a4, a5, a6⟩

theorem execute_instruction_flat_agrees (prog : List Char) (loops : Option Loops)
    (s s1 : State) (f : FlatState) (h : execute_instruction prog loops s = some s1)
    (ha : Agrees s f) :
    ∃ f1, execute_instruction_flat prog loops f = some f1 ∧ Agrees s1 f1 := by
  obtain ⟨c, s2, c1, h0, hsw, h2, rfl⟩ := execute_instruction_some prog loops s s1 h
  obtain ⟨f2, hf, b1, b2, b3, b4, b5, b6⟩ := switch_body_flat_agrees prog c s s2 f hsw ha
  rw [← ha.1] at h0
  rw [← b1] at h2
  refine ⟨_, execute_instruction_flat_eq prog loops f f2 c c1 h0 hf h2, ?_, b2, b3, b4, ?_, b6⟩
  · show f2.ip + 1 = s2.ip + 1
    rw [b1]
  · show (if c1 = NUL then true else f2.is_program_finished) =
      if c1 = NUL then true else s2.is_program_finished
    rw [b5]

theorem run_flat_agrees (prog : List Char) (loops : Option Loops) :
    ∀ (n : Nat) (s s1 : State) (f : FlatState), run prog loops n s = some s1 → Agrees s f →
      ∃ f1, run_flat prog loops n f = some f1 ∧ Agrees s1 f1 := by
  intro n
  induction n with
  | zero =>
    intro s s1 f h ha
    simp only [run, Option.some.injEq] at h
    subst h
    exact ⟨f, rfl, ha⟩
  | succ n ih =>
    intro s s1 f h ha
    simp only [run] at h
    simp only [run_flat]
    by_cases hs : s.is_program_finished = true
    · have hf : f.is_program_finished = true := by rw [ha.2.2.2.2.1, hs]
      rw [if_pos hs] at h
      rw [if_pos hf]
      obtain rfl := Option.some.inj h
      exact ⟨f, rfl, ha⟩
    · have hf : ¬ f.is_program_finished = true := by rw [ha.2.2.2.2.1]; exact hs
      rw [if_neg hs] at h
      rw [if_neg hf]
      cases he : execute_instruction prog loops s with
      | none => simp [he] at h
      | some s2 =>
        simp only [he] at h
        obtain ⟨f2, hf2, ha2⟩ := execute_instruction_flat_agrees prog loops s s2 f he ha
        rw [hf2]
        exact ih s2 s1 f2 h ha2

theorem run_flat_of_finished (prog : List Char) (loops : Option Loops) (f : FlatState)
    (hf : f.is_program_finished = true) : ∀ k, run_flat prog loops k f = some f := by
  intro k
  cases k with
  | zero => rfl
  | succ k => simp only [run_flat, hf, if_true]

theorem run_flat_stable (prog : List Char) (loops : Option Loops) :
    ∀ (n : Nat) (f f1 : FlatState), run_flat prog loops n f = some f1 →
      f1.is_program_finished = true → ∀ k, run_flat prog loops (n + k) f = some f1 := by
  intro n
  induction n with
  | zero =>
    intro f f1 h hf k
    simp only [run_flat, Option.some.injEq] at h
    subst h
    exact run_flat_of_finished prog loops f hf _
  | succ n ih =>
    intro f f1 h hf k
    rw [Nat.add_right_comm]
    simp only [run_flat] at h ⊢
    by_cases hs : f.is_program_finished = true
    · rw [if_pos hs] at h ⊢
      exact h
    · rw [if_neg hs] at h ⊢
      cases he : execute_instruction_flat prog loops f with
      | none => simp [he] at h
      | some f2 =>
        simp only [he] at h ⊢
        exact ih f2 f1 h hf k

theorem run_flat_loops (prog : List Char) (l1 l2 : Option Loops) :
    ∀ (n : Nat) (f : FlatState), run_flat prog l1 n f = run_flat prog l2 n f := by
  intro n
  induction n with
  | zero => intro f; rfl
  | succ n ih =>
    intro f
    simp only [run_flat]
    have : execute_instruction_flat prog l1 f = execute_instruction_flat prog l2 f := rfl
    rw [this]
    cases execute_instruction_flat prog l2 f with
    | none => rfl
    | some f2 => simp only [ih]

theorem execute_instruction_length (prog : List Char) (loops : Option Loops) (s s1 : State)
    (h : execute_instruction prog loops s = some s1) : s1.tape.length = s.tape.length := by
  obtain ⟨c, s2, c1, -, hsw, -, rfl⟩ := execute_instruction_some prog loops s s1 h
  show s2.tape.length = s.tape.length
  rcases switch_body_some prog c s s2 hsw with
    ⟨-, rfl⟩ | ⟨-, rfl⟩ | ⟨-, v, t, -, hs, rfl⟩ | ⟨-, v, t, -, hs, rfl⟩ | ⟨-, v, -, rfl⟩ |
    ⟨-, t, hs, rfl⟩ | ⟨-, v, -, ⟨-, ip, -, rfl⟩ | ⟨-, rfl⟩⟩ |
    ⟨-, v, -, ⟨-, ip, -, rfl⟩ | ⟨-, rfl⟩⟩ | ⟨-, -, -, -, -, -, -, -, rfl⟩
  all_goals first | rfl | exact (store_frame _ _ _ _ hs).1

theorem run_length (prog : List Char) (loops : Option Loops) :
    ∀ (n : Nat) (s s1 : State), run prog loops n s = some s1 →
      s1.tape.length = s.tape.length := by
  intro n
  induction n with
  | zero =>
    intro s s1 h
    simp only [run, Option.some.injEq] at h
    rw [h]
  | succ n ih =>
    intro s s1 h
    simp only [run] at h
    by_cases hs : s.is_program_finished = true
    · rw [if_pos hs] at h
      rw [Option.some.inj h]
    · rw [if_neg hs] at h
      cases he : execute_instruction prog loops s with
      | none => simp [he] at h
      | some s2 =>
        simp only [he] at h
        rw [ih s2 s1 h, execute_instruction_length prog loops s s2 he]

/-! ## Properties of the specification, checked on the code -/

/-- C1: for every program text (a C string, so without an inner terminator),
`build_loops` returns a result exactly when the text is well nested (each initial
segment holds at least as many `[` as `]`, the whole text as many of each), and it
returns `NULL` on every other text. -/
theorem build_loops_succeeds_iff_well_nested (prog : List Char) (hnul : NUL ∉ prog) :
    ((∃ loops, build_loops prog = some loops) ↔ WellNested prog) ∧
      (¬ WellNested prog → build_loops prog = none) := by
  refine ⟨build_loops_isSome_iff prog hnul, fun hw => ?_⟩
  cases h : build_loops prog with
  | none => rfl
  | some loops => exact absurd ((build_loops_isSome_iff prog hnul).1 ⟨loops, h⟩) hw

theorem build_loops_succeeds_iff_well_nested_witness :
    NUL ∉ "+[>[-]<]".toList ∧
      (((∃ loops, build_loops "+[>[-]<]".toList = some loops) ↔ WellNested "+[>[-]<]".toList) ∧
        (¬ WellNested "+[>[-]<]".toList → build_loops "+[>[-]<]".toList = none)) :=
  ⟨by decide, build_loops_succeeds_iff_well_nested "+[>[-]<]".toList (by decide)⟩

/-- C2 (the code at the failing inputs): on the texts `[]` and `[][]` every entry
returned by `build_loops` has as `start` the address of cell 0 of the scratch stack,
not the position of its `[`; only `end_` is a position of the text. -/
theorem build_loops_start_is_stack_cell :
    build_loops "[]".toList = some ⟨1, [⟨Ptr.stack 0, Ptr.prog 1⟩]⟩ ∧
      build_loops "[][]".toList =
        some ⟨2, [⟨Ptr.stack 0, Ptr.prog 1⟩, ⟨Ptr.stack 0, Ptr.prog 3⟩]⟩ := by
  decide

/-- C3: for every well-nested program text, `build_loops` returns a table whose
`count` is the number of `[` of the text, which is also its number of `]`, and the
table holds exactly `count` entries. -/
theorem build_loops_count (prog : List Char) (hnul : NUL ∉ prog) (hw : WellNested prog) :
    ∃ loops, build_loops prog = some loops ∧
      loops.count = prog.count '[' ∧ loops.count = prog.count ']' ∧
        loops.array.length = loops.count := by
  obtain ⟨loops, h⟩ := (build_loops_isSome_iff prog hnul).2 hw
  obtain ⟨s, hs, -, hl⟩ := (build_loops_eq_some_iff prog loops).1 h
  have hres := build_loops_scan_result prog hnul _ _ _ hs
  refine ⟨loops, h, ?_, ?_, ?_⟩
  · rw [← hl, hres.2.1, hw.2]; simp
  · rw [← hl, hres.2.1]; simp
  · rw [← hl, hres.2.1, hres.2.2]; simp

theorem build_loops_count_witness :
    NUL ∉ "[[]][]".toList ∧ WellNested "[[]][]".toList ∧
      ∃ loops, build_loops "[[]][]".toList = some loops ∧
        loops.count = "[[]][]".toList.count '[' ∧ loops.count = "[[]][]".toList.count ']' ∧
          loops.array.length = loops.count :=
  ⟨by decide, by decide, build_loops_count "[[]][]".toList (by decide) (by decide)⟩

/-- C4: in a well-nested program, at a `[` whose current cell is 0 the step moves
the instruction pointer to one past the `]` that stack-discipline matching pairs
with it and leaves tape, data pointer, input and output as they were; when the
cell is not 0 the instruction pointer becomes `p + 1`.  The program `[]` started on
the all-zero tape is finished after that single step, tape unchanged. -/
theorem execute_instruction_open (prog : List Char) (loops : Option Loops) (s : State)
    (hw : WellNested prog) (hp : prog[s.ip]? = some '[') :
    (∃ q, Matching prog s.ip q) ∧
      (∀ q, Matching prog s.ip q → load s.tape s.dp = some 0 →
        ∃ s1, execute_instruction prog loops s = some s1 ∧ s1.ip = q + 1 ∧
          s1.tape = s.tape ∧ s1.dp = s.dp ∧ s1.input = s.input ∧ s1.output = s.output) ∧
      (∀ v, load s.tape s.dp = some v → v ≠ 0 →
        ∃ s1, execute_instruction prog loops s = some s1 ∧ s1.ip = s.ip + 1 ∧
          s1.tape = s.tape ∧ s1.dp = s.dp ∧ s1.input = s.input ∧ s1.output = s.output) ∧
      execute_instruction "[]".toList loops (initial_state zero_tape []) =
        some { initial_state zero_tape [] with ip := 2, is_program_finished := true } := by
  have hmem := mem_getElem?_of_some prog s.ip _ hp
  refine ⟨matching_exists prog hw s.ip hp, ?_, ?_, ?_⟩
  · intro q hq hload
    have he := matching_encloses prog s.ip q hq
    have hscan := scan_forward_encloses prog s.ip q he (q - s.ip) s.ip 1 (Nat.le_refl _)
      (by have := he.1; omega)
      (by rw [height_succ prog s.ip _ hp]; simp [delta])
    have hql := lt_length_of_getElem? he.2.2.1
    obtain ⟨c1, hc1⟩ := mem_getElem?_of_le prog (q + 1) (by omega)
    have hsw : switch_body prog '[' s = some { s with ip := q } := by
      rw [switch_body_open prog s 0 hload, if_pos rfl, hscan]
    exact ⟨_, execute_instruction_eq prog loops s _ _ c1 hmem hsw hc1, rfl, rfl, rfl, rfl, rfl⟩
  · intro v hload hv
    have hpl := lt_length_of_getElem? hp
    obtain ⟨c1, hc1⟩ := mem_getElem?_of_le prog (s.ip + 1) (by omega)
    have hsw : switch_body prog '[' s = some s := by
      rw [switch_body_open prog s v hload, if_neg hv]
    exact ⟨_, execute_instruction_eq prog loops s _ _ c1 hmem hsw hc1, rfl, rfl, rfl, rfl, rfl⟩
  · have hl : load (initial_state zero_tape []).tape (initial_state zero_tape []).dp = some 0 :=
      load_zero_tape DATA_ARRAY_SIZE 0 (by decide)
    have hsw : switch_body "[]".toList '[' (initial_state zero_tape []) =
        some { initial_state zero_tape [] with ip := 1 } := by
      rw [switch_body_open _ _ 0 hl, if_pos rfl]
      rfl
    rw [execute_instruction_eq "[]".toList loops (initial_state zero_tape []) _ '[' NUL
      (by decide) hsw (by decide)]
    rfl

theorem execute_instruction_open_witness :
    WellNested "+[-]".toList ∧
      "+[-]".toList[(⟨1, 0, [0, 7], [], [], false⟩ : State).ip]? = some '[' ∧
        ((∃ q, Matching "+[-]".toList (⟨1, 0, [0, 7], [], [], false⟩ : State).ip q) ∧
          (∀ q, Matching "+[-]".toList (⟨1, 0, [0, 7], [], [], false⟩ : State).ip q →
            load [0, 7] 0 = some 0 →
              ∃ s1, execute_instruction "+[-]".toList none ⟨1, 0, [0, 7], [], [], false⟩ = some s1 ∧
                s1.ip = q + 1 ∧ s1.tape = [0, 7] ∧ s1.dp = 0 ∧ s1.input = [] ∧ s1.output = []) ∧
          (∀ v, load [0, 7] 0 = some v → v ≠ 0 →
              ∃ s1, execute_instruction "+[-]".toList none ⟨1, 0, [0, 7], [], [], false⟩ = some s1 ∧
                s1.ip = 1 + 1 ∧ s1.tape = [0, 7] ∧ s1.dp = 0 ∧ s1.input = [] ∧ s1.output = []) ∧
          execute_instruction "[]".toList none (initial_state zero_tape []) =
            some { initial_state zero_tape [] with ip := 2, is_program_finished := true }) :=
  ⟨by decide, by decide,
    execute_instruction_open "+[-]".toList none ⟨1, 0, [0, 7], [], [], false⟩
      (by decide) (by decide)⟩

/-- C5: in a well-nested program, at a `]` whose current cell is not 0 the step moves
the instruction pointer to one past the `[` that stack-discipline matching pairs
with it and leaves tape, data pointer, input and output as they were; when the
cell is 0 the instruction pointer becomes `q + 1`. -/
theorem execute_instruction_close (prog : List Char) (loops : Option Loops) (s : State)
    (hw : WellNested prog) (hq : prog[s.ip]? = some ']') :
    (∃ p, Matching prog p s.ip) ∧
      (∀ p, Matching prog p s.ip → ∀ v, load s.tape s.dp = some v → v ≠ 0 →
        ∃ s1, execute_instruction prog loops s = some s1 ∧ s1.ip = p + 1 ∧
          s1.tape = s.tape ∧ s1.dp = s.dp ∧ s1.input = s.input ∧ s1.output = s.output) ∧
      (load s.tape s.dp = some 0 →
        ∃ s1, execute_instruction prog loops s = some s1 ∧ s1.ip = s.ip + 1 ∧
          s1.tape = s.tape ∧ s1.dp = s.dp ∧ s1.input = s.input ∧ s1.output = s.output) := by
  have hmem := mem_getElem?_of_some prog s.ip _ hq
  have hql := lt_length_of_getElem? hq
  refine ⟨matching_exists_close prog hw s.ip hq, ?_, ?_⟩
  · intro p hp v hload hv
    have he := matching_encloses prog p s.ip hp
    have hscan := scan_backward_encloses prog p s.ip he s.ip 1 (by have := he.1; omega)
      (Nat.le_refl _)
      (by have h1 := height_succ prog s.ip _ hq
          have h2 := he.2.2.2.1
          have h3 : delta ']' = -1 := by decide
          rw [h3] at h1
          omega)
    obtain ⟨c1, hc1⟩ := mem_getElem?_of_le prog (p + 1) (by have := he.1; omega)
    have hsw : switch_body prog ']' s = some { s with ip := p } := by
      rw [switch_body_close prog s v hload, if_pos hv, hscan]
    exact ⟨_, execute_instruction_eq prog loops s _ _ c1 hmem hsw hc1, rfl, rfl, rfl, rfl, rfl⟩
  · intro hload
    obtain ⟨c1, hc1⟩ := mem_getElem?_of_le prog (s.ip + 1) (by omega)
    have hsw : switch_body prog ']' s = some s := by
      rw [switch_body_close prog s 0 hload, if_neg (by simp)]
    exact ⟨_, execute_instruction_eq prog loops s _ _ c1 hmem hsw hc1, rfl, rfl, rfl, rfl, rfl⟩

theorem execute_instruction_close_witness :
    WellNested "+[-]".toList ∧
      "+[-]".toList[(⟨3, 0, [5, 7], [], [], false⟩ : State).ip]? = some ']' ∧
        ((∃ p, Matching "+[-]".toList p (⟨3, 0, [5, 7], [], [], false⟩ : State).ip) ∧
          (∀ p, Matching "+[-]".toList p (⟨3, 0, [5, 7], [], [], false⟩ : State).ip →
            ∀ v, load [5, 7] 0 = some v → v ≠ 0 →
              ∃ s1, execute_instruction "+[-]".toList none ⟨3, 0, [5, 7], [], [], false⟩ = some s1 ∧
                s1.ip = p + 1 ∧ s1.tape = [5, 7] ∧ s1.dp = 0 ∧ s1.input = [] ∧ s1.output = []) ∧
          (load [5, 7] 0 = some 0 →
              ∃ s1, execute_instruction "+[-]".toList none ⟨3, 0, [5, 7], [], [], false⟩ = some s1 ∧
                s1.ip = 3 + 1 ∧ s1.tape = [5, 7] ∧ s1.dp = 0 ∧ s1.input = [] ∧ s1.output = [])) :=
  ⟨by decide, by decide,
    execute_instruction_close "+[-]".toList none ⟨3, 0, [5, 7], [], [], false⟩
      (by decide) (by decide)⟩

/-- C6: the 106-character Hello World program, run from the initial state on the
all-zero tape of 32000 cells by repeated `execute_instruction`, reaches
`is_program_finished` (after 906 steps) and the bytes written are exactly
`Hello World!` followed by a line feed; this holds for every pending input and
every value of the `loops` argument. -/
theorem hello_world_output (loops : Option Loops) (input : List Nat) :
    hello_world.length = 106 ∧ zero_tape.length = 32000 ∧
      ∃ n s, run hello_world loops n (initial_state zero_tape input) = some s ∧
        s.is_program_finished = true ∧
          s.output = "Hello World!\n".toList.map Char.toNat := by
  have h1 := run_append hello_world none (List.replicate (DATA_ARRAY_SIZE - 8) 0) 906 _ _
    hello_small
  have h2 := run_with_input hello_world none input (by decide) 906 _ _ h1
  have h3 : initial_state zero_tape input =
      ((initial_state (List.replicate 8 0) []).extend
        (List.replicate (DATA_ARRAY_SIZE - 8) 0)).with_input input := by
    simp only [initial_state, State.extend, State.with_input]
    rw [zero_tape_split 8 (by decide)]
  rw [← h3, run_loops hello_world none loops] at h2
  have h4 : [72, 101, 108, 108, 111, 32, 87, 111, 114, 108, 100, 33, 10] =
      "Hello World!\n".toList.map Char.toNat := by decide
  exact ⟨by decide, List.length_replicate _ _, 906, _, h2, rfl, h4⟩

/-- C7 (counterexample): the one-instruction programs `<`, started with the data
pointer at index 0, and `>`, started with it at index 31999 of the 32000-cell tape,
do not fail: the step returns a state whose data pointer is -1, respectively 32000,
the flag `is_program_finished` is set and nothing has been written. -/
theorem move_past_tape_end_succeeds :
    execute_instruction ['<'] none (initial_state zero_tape []) =
        some { initial_state zero_tape [] with ip := 1, dp := -1, is_program_finished := true } ∧
      execute_instruction ['>'] none { initial_state zero_tape [] with dp := 31999 } =
        some { initial_state zero_tape [] with
          ip := 1, dp := 32000, is_program_finished := true } ∧
      execute_instruction ['<'] none (initial_state zero_tape []) ≠ none ∧
      zero_tape.length = 32000 :=
  ⟨rfl, rfl, fun h => Option.noConfusion h, List.length_replicate _ _⟩

/-- C7 (amended): for every state whose instruction is `<` or `>`, whatever the data
pointer, the step succeeds without any bounds check: the data pointer moves by -1
or +1 (also from index 0 to -1 and from 31999 to 32000), the instruction pointer
advances by one and tape, input and output are unchanged.  A program whose first
instruction is `<` completes its first step with the data pointer at -1 and
nothing written. -/
theorem execute_instruction_move (prog : List Char) (loops : Option Loops) (s : State) :
    (prog[s.ip]? = some '<' →
      ∃ s1, execute_instruction prog loops s = some s1 ∧ s1.dp = s.dp - 1 ∧
        s1.ip = s.ip + 1 ∧ s1.tape = s.tape ∧ s1.input = s.input ∧ s1.output = s.output) ∧
      (prog[s.ip]? = some '>' →
        ∃ s1, execute_instruction prog loops s = some s1 ∧ s1.dp = s.dp + 1 ∧
          s1.ip = s.ip + 1 ∧ s1.tape = s.tape ∧ s1.input = s.input ∧ s1.output = s.output) ∧
      ∀ (tape input : List Nat),
        ∃ s1, execute_instruction ('<' :: prog) loops (initial_state tape input) = some s1 ∧
          s1.dp = -1 ∧ s1.ip = 1 ∧ s1.tape = tape ∧ s1.output = [] := by
  refine ⟨?_, ?_, ?_⟩
  · intro h
    obtain ⟨c1, hc1⟩ := mem_getElem?_of_le prog (s.ip + 1) (lt_length_of_getElem? h)
    exact ⟨_, execute_instruction_eq prog loops s _ _ c1 (mem_getElem?_of_some prog _ _ h)
      (switch_body_left prog s) hc1, rfl, rfl, rfl, rfl, rfl⟩
  · intro h
    obtain ⟨c1, hc1⟩ := mem_getElem?_of_le prog (s.ip + 1) (lt_length_of_getElem? h)
    exact ⟨_, execute_instruction_eq prog loops s _ _ c1 (mem_getElem?_of_some prog _ _ h)
      (switch_body_right prog s) hc1, rfl, rfl, rfl, rfl, rfl⟩
  · intro tape input
    obtain ⟨c1, hc1⟩ := mem_getElem?_of_le ('<' :: prog) 1 (by simp)
    have h0 : (mem ('<' :: prog))[(initial_state tape input).ip]? = some '<' := by
      simp [mem, initial_state]
    exact ⟨_, execute_instruction_eq ('<' :: prog) loops (initial_state tape input) _ '<' c1
      h0 (switch_body_left _ _) hc1, rfl, rfl, rfl, rfl⟩

/-- C8 (counterexample): the program `,` run with no pending input on the tape
`[7, 9]` stores 255 in the current cell, not 0. -/
theorem input_at_end_of_stream_stores_255 :
    execute_instruction [','] none (initial_state [7, 9] []) =
      some { initial_state [255, 9] [] with ip := 1, is_program_finished := true } := by
  decide

/-- C8 (amended): for every state whose instruction is `,` executed at end of
stream, with the data pointer inside the tape, the step stores in the current cell
the value `EOF` converted to `uint8_t`, which is 255, and leaves the data pointer
and the output unchanged. -/
theorem execute_instruction_input_eof (prog : List Char) (loops : Option Loops) (s : State)
    (v : Nat) (hc : prog[s.ip]? = some ',') (hin : s.input = [])
    (hload : load s.tape s.dp = some v) :
    to_uint8 EOF = 255 ∧
      ∃ s1, execute_instruction prog loops s = some s1 ∧ load s1.tape s1.dp = some 255 ∧
        s1.dp = s.dp ∧ s1.ip = s.ip + 1 ∧ s1.input = [] ∧ s1.output = s.output := by
  refine ⟨by decide, ?_⟩
  obtain ⟨c1, hc1⟩ := mem_getElem?_of_le prog (s.ip + 1) (lt_length_of_getElem? hc)
  obtain ⟨t, ht, hlt⟩ := store_of_load s.tape s.dp v 255 hload
  have hsw : switch_body prog ',' s = some { s with tape := t, input := [] } := by
    rw [switch_body_comma, hin]
    have : to_uint8 (getchar []).1 = 255 := by decide
    rw [this, ht]
    rfl
  exact ⟨_, execute_instruction_eq prog loops s _ _ c1 (mem_getElem?_of_some prog _ _ hc)
    hsw hc1, hlt, rfl, rfl, rfl, rfl⟩

theorem execute_instruction_input_eof_witness :
    "+,".toList[(⟨1, 1, [3, 4], [], [9], false⟩ : State).ip]? = some ',' ∧
      (⟨1, 1, [3, 4], [], [9], false⟩ : State).input = [] ∧ load [3, 4] 1 = some 4 ∧
        (to_uint8 EOF = 255 ∧
          ∃ s1, execute_instruction "+,".toList none ⟨1, 1, [3, 4], [], [9], false⟩ = some s1 ∧
            load s1.tape s1.dp = some 255 ∧
              s1.dp = 1 ∧ s1.ip = 1 + 1 ∧ s1.input = [] ∧ s1.output = [9]) :=
  ⟨by decide, rfl, by decide,
    execute_instruction_input_eof "+,".toList none ⟨1, 1, [3, 4], [], [9], false⟩ 4
      (by decide) rfl (by decide)⟩

/-- C9: for every state and every value `c` of the current cell, the step on `+`
sets that cell to `(c + 1) mod 256` and the step on `-` sets it to `(c - 1) mod 256`
(computed over the integers); 255 incremented gives 0 and 0 decremented gives 255. -/
theorem execute_instruction_plus_minus (prog : List Char) (loops : Option Loops) (s : State)
    (c : Nat) (hload : load s.tape s.dp = some c) :
    (prog[s.ip]? = some '+' →
      ∃ s1, execute_instruction prog loops s = some s1 ∧ s1.dp = s.dp ∧
        load s1.tape s1.dp = some ((c + 1) % 256) ∧
          (c = 255 → load s1.tape s1.dp = some 0)) ∧
      (prog[s.ip]? = some '-' →
        ∃ s1 v, execute_instruction prog loops s = some s1 ∧ s1.dp = s.dp ∧
          load s1.tape s1.dp = some v ∧ (v : Int) = ((c : Int) - 1) % 256 ∧
            (c = 0 → v = 255)) := by
  constructor
  · intro h
    obtain ⟨c1, hc1⟩ := mem_getElem?_of_le prog (s.ip + 1) (lt_length_of_getElem? h)
    obtain ⟨t, ht, hlt⟩ := store_of_load s.tape s.dp c ((c + 1) % 256) hload
    have hsw : switch_body prog '+' s = some { s with tape := t } := by
      rw [switch_body_plus, hload]
      simp only [ht]
    refine ⟨_, execute_instruction_eq prog loops s _ _ c1 (mem_getElem?_of_some prog _ _ h)
      hsw hc1, rfl, hlt, ?_⟩
    intro h255
    subst h255
    exact hlt
  · intro h
    obtain ⟨c1, hc1⟩ := mem_getElem?_of_le prog (s.ip + 1) (lt_length_of_getElem? h)
    obtain ⟨t, ht, hlt⟩ := store_of_load s.tape s.dp c ((c + 255) % 256) hload
    have hsw : switch_body prog '-' s = some { s with tape := t } := by
      rw [switch_body_minus, hload]
      simp only [ht]
    refine ⟨_, (c + 255) % 256, execute_instruction_eq prog loops s _ _ c1
      (mem_getElem?_of_some prog _ _ h) hsw hc1, rfl, hlt, by omega, ?_⟩
    intro h0
    subst h0
    rfl

theorem execute_instruction_plus_minus_witness :
    load (⟨0, 1, [3, 255], [], [], false⟩ : State).tape
        (⟨0, 1, [3, 255], [], [], false⟩ : State).dp = some 255 ∧
      (("+-".toList[(⟨0, 1, [3, 255], [], [], false⟩ : State).ip]? = some '+' →
        ∃ s1, execute_instruction "+-".toList none ⟨0, 1, [3, 255], [], [], false⟩ = some s1 ∧
          s1.dp = 1 ∧ load s1.tape s1.dp = some ((255 + 1) % 256) ∧
            (255 = 255 → load s1.tape s1.dp = some 0)) ∧
        ("+-".toList[(⟨0, 1, [3, 255], [], [], false⟩ : State).ip]? = some '-' →
          ∃ s1 v, execute_instruction "+-".toList none ⟨0, 1, [3, 255], [], [], false⟩ = some s1 ∧
            s1.dp = 1 ∧ load s1.tape s1.dp = some v ∧ (v : Int) = (((255 : Nat) : Int) - 1) % 256 ∧
              (255 = 0 → v = 255))) :=
  ⟨by decide,
    execute_instruction_plus_minus "+-".toList none ⟨0, 1, [3, 255], [], [], false⟩ 255
      (by decide)⟩

/-- C10: for every starting value `c` of the current cell (a `uint8_t`, so below
256), 256 consecutive `+` instructions executed one after the other bring the cell
back to `c`; the program made of 256 `+` followed by `.`, run on the all-zero tape
of 32000 cells, reaches `is_program_finished` having written exactly the byte 0. -/
theorem plus_256_times (prog : List Char) (loops : Option Loops) (s : State) (c : Nat)
    (hc : c < 256) (hload : load s.tape s.dp = some c)
    (hfin : s.is_program_finished = false)
    (hplus : ∀ k, k < 256 → prog[s.ip + k]? = some '+') :
    (∃ s1, run prog loops 256 s = some s1 ∧ s1.ip = s.ip + 256 ∧ s1.dp = s.dp ∧
        load s1.tape s1.dp = some c) ∧
      ∀ input, ∃ n s2,
        run (List.replicate 256 '+' ++ ['.']) loops n (initial_state zero_tape input) = some s2 ∧
          s2.is_program_finished = true ∧ s2.output = [0] := by
  constructor
  · obtain ⟨s1, h1, h2, h3, h4⟩ := run_plus prog loops 256 s c hc hload hfin hplus
    refine ⟨s1, h1, h2, h3, ?_⟩
    rw [h4]
    congr 1
    omega
  · intro input
    have h1 := run_append (List.replicate 256 '+' ++ ['.']) none
      (List.replicate (DATA_ARRAY_SIZE - 1) 0) 257 _ _ plus_256_dot_small
    have h2 := run_with_input (List.replicate 256 '+' ++ ['.']) none input (by decide) 257 _ _ h1
    have h3 : initial_state zero_tape input =
        ((initial_state (List.replicate 1 0) []).extend
          (List.replicate (DATA_ARRAY_SIZE - 1) 0)).with_input input := by
      simp only [initial_state, State.extend, State.with_input]
      rw [zero_tape_split 1 (by decide)]
    rw [← h3, run_loops _ none loops] at h2
    exact ⟨257, _, h2, rfl, rfl⟩

theorem plus_256_times_witness :
    (200 : Nat) < 256 ∧ load [200] 0 = some 200 ∧
      (⟨0, 0, [200], [], [], false⟩ : State).is_program_finished = false ∧
      (∀ k, k < 256 → (List.replicate 256 '+')[0 + k]? = some '+') ∧
      (∃ s1, run (List.replicate 256 '+') none 256 ⟨0, 0, [200], [], [], false⟩ = some s1 ∧
        s1.ip = 0 + 256 ∧ s1.dp = 0 ∧ load s1.tape s1.dp = some 200) :=
  ⟨by decide, by decide, rfl,
    fun k hk => by rw [List.getElem?_replicate, Nat.zero_add, if_pos hk],
    (plus_256_times (List.replicate 256 '+') none ⟨0, 0, [200], [], [], false⟩ 200
      (by decide) (by decide) rfl
      (fun k hk => by
        show (List.replicate 256 '+')[0 + k]? = some '+'
        rw [List.getElem?_replicate, Nat.zero_add, if_pos hk])).1⟩

/-- C11 (counterexample): on `]` (unmatched close at position 0) and on `+]`
(unmatched close at position 1) `build_loops` returns the same `NULL`, so nothing
computed from its result gives the position of the unmatched `]`. -/
theorem unmatched_close_position_not_reported :
    build_loops "]".toList = none ∧ build_loops "+]".toList = none ∧
      ¬ ∃ f : Option Loops → Nat,
        f (build_loops "]".toList) = 0 ∧ f (build_loops "+]".toList) = 1 := by
  have h0 : build_loops "]".toList = none := by decide
  have h1 : build_loops "+]".toList = none := by decide
  refine ⟨h0, h1, ?_⟩
  rintro ⟨f, a, b⟩
  rw [h0] at a
  rw [h1] at b
  omega

/-- C11 (amended): for any program text with a `]` at position `p` whose preceding
part is well nested (so this `]` is unmatched and no `[` before it is pending),
`build_loops` fails by returning `NULL`, while it succeeds on the part before `p`;
the `NULL` result carries neither an error kind nor the position. -/
theorem build_loops_unmatched_close (prog : List Char) (p : Nat) (hnul : NUL ∉ prog)
    (hp : prog[p]? = some ']') (hpre : WellNested (prog.take p)) :
    build_loops prog = none ∧ ∃ loops, build_loops (prog.take p) = some loops := by
  have hnul1 : NUL ∉ prog.take p := fun h => hnul (List.mem_of_mem_take h)
  refine ⟨?_, (build_loops_isSome_iff _ hnul1).2 hpre⟩
  cases h : build_loops prog with
  | none => rfl
  | some loops =>
    exfalso
    have hw := (build_loops_isSome_iff prog hnul).1 ⟨loops, h⟩
    have hlt := lt_length_of_getElem? hp
    have h1 := hw.1 (p + 1) (by omega)
    have h2 := hpre.2
    rw [List.take_succ, hp] at h1
    simp only [Option.toList, List.count_append, List.count_cons, List.count_nil] at h1
    simp at h1
    omega

theorem build_loops_unmatched_close_witness :
    NUL ∉ "[-]]+".toList ∧ "[-]]+".toList[3]? = some ']' ∧ WellNested ("[-]]+".toList.take 3) ∧
      (build_loops "[-]]+".toList = none ∧
        ∃ loops, build_loops ("[-]]+".toList.take 3) = some loops) :=
  ⟨by decide, by decide, by decide,
    build_loops_unmatched_close "[-]]+".toList 3 (by decide) (by decide) (by decide)⟩

/-- C12 (counterexample): on `[` (open left at position 0), on `+[` (open left at
position 1) and on `]` (unmatched close) `build_loops` returns the same `NULL`, so
nothing computed from its result names the positions of the `[` left open. -/
theorem unmatched_open_positions_not_reported :
    build_loops "[".toList = none ∧ build_loops "+[".toList = none ∧
      build_loops "]".toList = none ∧
        ¬ ∃ f : Option Loops → List Nat,
          f (build_loops "[".toList) = [0] ∧ f (build_loops "+[".toList) = [1] := by
  have h0 : build_loops "[".toList = none := by decide
  have h1 : build_loops "+[".toList = none := by decide
  refine ⟨h0, h1, by decide, ?_⟩
  rintro ⟨f, a, b⟩
  rw [h0] at a
  rw [h1, a] at b
  exact absurd b (by decide)

/-- C12 (amended): for any program text with no unmatched `]` (no initial segment
holds more `]` than `[`) and one or more `[` left open at the end, the scan of
`build_loops` reaches the end of the text with as many stack entries as `[` are left
open, and `build_loops` fails by returning `NULL`; the `NULL` result carries neither
an error kind nor any position. -/
theorem build_loops_unmatched_open (prog : List Char) (hnul : NUL ∉ prog)
    (hpre : ∀ n, n < prog.length + 1 → (prog.take n).count ']' ≤ (prog.take n).count '[')
    (hopen : prog.count ']' < prog.count '[') :
    build_loops prog = none ∧
      ∃ s, build_loops_scan prog 0
          { stack := List.replicate (strlen prog) NUL, stack_index := 0,
            loops := { count := 0, array := [] } } = some s ∧
        s.stack_index = prog.count '[' - prog.count ']' ∧ 0 < s.stack_index := by
  obtain ⟨s, hs⟩ := (build_loops_scan_isSome prog hnul 0
    { stack := List.replicate (strlen prog) NUL, stack_index := 0,
      loops := { count := 0, array := [] } }).2 (fun n hn => by simpa using hpre n hn)
  have hres := (build_loops_scan_result prog hnul _ _ _ hs).1
  simp only at hres
  refine ⟨?_, s, hs, by omega, by omega⟩
  cases h : build_loops prog with
  | none => rfl
  | some loops =>
    exfalso
    have hw := (build_loops_isSome_iff prog hnul).1 ⟨loops, h⟩
    have := hw.2
    omega

theorem build_loops_unmatched_open_witness :
    NUL ∉ "[[-]+[".toList ∧
      (∀ n, n < "[[-]+[".toList.length + 1 →
        ("[[-]+[".toList.take n).count ']' ≤ ("[[-]+[".toList.take n).count '[') ∧
      "[[-]+[".toList.count ']' < "[[-]+[".toList.count '[' ∧
      (build_loops "[[-]+[".toList = none ∧
        ∃ s, build_loops_scan "[[-]+[".toList 0
            { stack := List.replicate (strlen "[[-]+[".toList) NUL, stack_index := 0,
              loops := { count := 0, array := [] } } = some s ∧
          s.stack_index = "[[-]+[".toList.count '[' - "[[-]+[".toList.count ']' ∧
            0 < s.stack_index) :=
  ⟨by decide, by decide, by decide,
    build_loops_unmatched_open "[[-]+[".toList (by decide) (by decide) (by decide)⟩

/-- C13: for every state and every instruction on which the step is defined, every
tape cell other than the one at the current data pointer is unchanged (and the tape
keeps its length); when the instruction is none of `+`, `-`, `,` the whole tape is
unchanged. -/
theorem execute_instruction_tape_frame (prog : List Char) (loops : Option Loops)
    (s s1 : State) (c : Char) (hc : (mem prog)[s.ip]? = some c)
    (h : execute_instruction prog loops s = some s1) :
    s1.tape.length = s.tape.length ∧
      (∀ i : Nat, (i : Int) ≠ s.dp → s1.tape[i]? = s.tape[i]?) ∧
        (c ≠ '+' → c ≠ '-' → c ≠ ',' → s1.tape = s.tape) := by
  obtain ⟨c0, s2, c1, h0, hsw, -, rfl⟩ := execute_instruction_some prog loops s s1 h
  rw [hc] at h0
  obtain rfl := Option.some.inj h0
  show s2.tape.length = s.tape.length ∧
    (∀ i : Nat, (i : Int) ≠ s.dp → s2.tape[i]? = s.tape[i]?) ∧
      (c ≠ '+' → c ≠ '-' → c ≠ ',' → s2.tape = s.tape)
  rcases switch_body_some prog c s s2 hsw with
    ⟨-, rfl⟩ | ⟨-, rfl⟩ | ⟨rfl, v, t, -, hs, rfl⟩ | ⟨rfl, v, t, -, hs, rfl⟩ | ⟨-, v, -, rfl⟩ |
    ⟨rfl, t, hs, rfl⟩ | ⟨-, v, -, ⟨-, ip, -, rfl⟩ | ⟨-, rfl⟩⟩ |
    ⟨-, v, -, ⟨-, ip, -, rfl⟩ | ⟨-, rfl⟩⟩ | ⟨-, -, -, -, -, -, -, -, rfl⟩
  · exact ⟨rfl, fun _ _ => rfl, fun _ _ _ => rfl⟩
  · exact ⟨rfl, fun _ _ => rfl, fun _ _ _ => rfl⟩
  · exact ⟨(store_frame _ _ _ _ hs).1, (store_frame _ _ _ _ hs).2, fun h => absurd rfl h⟩
  · exact ⟨(store_frame _ _ _ _ hs).1, (store_frame _ _ _ _ hs).2, fun _ h => absurd rfl h⟩
  · exact ⟨rfl, fun _ _ => rfl, fun _ _ _ => rfl⟩
  · exact ⟨(store_frame _ _ _ _ hs).1, (store_frame _ _ _ _ hs).2, fun _ _ h => absurd rfl h⟩
  · exact ⟨rfl, fun _ _ => rfl, fun _ _ _ => rfl⟩
  · exact ⟨rfl, fun _ _ => rfl, fun _ _ _ => rfl⟩
  · exact ⟨rfl, fun _ _ => rfl, fun _ _ _ => rfl⟩
  · exact ⟨rfl, fun _ _ => rfl, fun _ _ _ => rfl⟩
  · exact ⟨rfl, fun _ _ => rfl, fun _ _ _ => rfl⟩

theorem execute_instruction_tape_frame_witness :
    (mem "+>".toList)[(⟨0, 1, [3, 4, 5], [], [], false⟩ : State).ip]? = some '+' ∧
      execute_instruction "+>".toList none ⟨0, 1, [3, 4, 5], [], [], false⟩ =
        some ⟨1, 1, [3, 5, 5], [], [], false⟩ ∧
      ((⟨1, 1, [3, 5, 5], [], [], false⟩ : State).tape.length = [3, 4, 5].length ∧
        (∀ i : Nat, (i : Int) ≠ 1 →
          (⟨1, 1, [3, 5, 5], [], [], false⟩ : State).tape[i]? = [3, 4, 5][i]?) ∧
        ('+' ≠ '+' → '+' ≠ '-' → '+' ≠ ',' →
          (⟨1, 1, [3, 5, 5], [], [], false⟩ : State).tape = [3, 4, 5])) :=
  ⟨by decide, by decide,
    execute_instruction_tape_frame "+>".toList none ⟨0, 1, [3, 4, 5], [], [], false⟩
      ⟨1, 1, [3, 5, 5], [], [], false⟩ '+' (by decide) (by decide)⟩

/-- C14: for every state whose instruction is `.` (current cell readable), the step
appends exactly one byte to the output, the value of the current cell, and leaves
tape and data pointer unchanged; for every other instruction character the step
leaves the output as it was. -/
theorem execute_instruction_output (prog : List Char) (loops : Option Loops) (s : State) :
    (∀ v, prog[s.ip]? = some '.' → load s.tape s.dp = some v →
      ∃ s1, execute_instruction prog loops s = some s1 ∧ s1.output = s.output ++ [v] ∧
        s1.tape = s.tape ∧ s1.dp = s.dp) ∧
      (∀ c s1, (mem prog)[s.ip]? = some c → c ≠ '.' →
        execute_instruction prog loops s = some s1 → s1.output = s.output) := by
  constructor
  · intro v hc hload
    obtain ⟨c1, hc1⟩ := mem_getElem?_of_le prog (s.ip + 1) (lt_length_of_getElem? hc)
    have hsw : switch_body prog '.' s = some { s with output := s.output ++ [v] } := by
      rw [switch_body_dot, hload]
    exact ⟨_, execute_instruction_eq prog loops s _ _ c1 (mem_getElem?_of_some prog _ _ hc)
      hsw hc1, rfl, rfl, rfl⟩
  · intro c s1 hc hne h
    obtain ⟨c0, s2, c1, h0, hsw, -, rfl⟩ := execute_instruction_some prog loops s s1 h
    rw [hc] at h0
    obtain rfl := Option.some.inj h0
    show s2.output = s.output
    rcases switch_body_some prog c s s2 hsw with
      ⟨-, rfl⟩ | ⟨-, rfl⟩ | ⟨-, v, t, -, -, rfl⟩ | ⟨-, v, t, -, -, rfl⟩ | ⟨rfl, v, -, rfl⟩ |
      ⟨-, t, -, rfl⟩ | ⟨-, v, -, ⟨-, ip, -, rfl⟩ | ⟨-, rfl⟩⟩ |
      ⟨-, v, -, ⟨-, ip, -, rfl⟩ | ⟨-, rfl⟩⟩ | ⟨-, -, -, -, -, -, -, -, rfl⟩
    all_goals first | rfl | exact absurd rfl hne

/-- C15: for every state whose instruction character is none of the eight
`>`, `<`, `+`, `-`, `.`, `,`, `[`, `]`, the step is defined and is a no-op: tape and
data pointer are unchanged, nothing is read from the input or written to the output,
and the instruction pointer advances by exactly one. -/
theorem execute_instruction_comment (prog : List Char) (loops : Option Loops) (s : State)
    (c : Char) (hc : prog[s.ip]? = some c)
    (h1 : c ≠ '>') (h2 : c ≠ '<') (h3 : c ≠ '+') (h4 : c ≠ '-') (h5 : c ≠ '.') (h6 : c ≠ ',')
    (h7 : c ≠ '[') (h8 : c ≠ ']') :
    ∃ s1, execute_instruction prog loops s = some s1 ∧ s1.tape = s.tape ∧ s1.dp = s.dp ∧
      s1.input = s.input ∧ s1.output = s.output ∧ s1.ip = s.ip + 1 := by
  obtain ⟨c1, hc1⟩ := mem_getElem?_of_le prog (s.ip + 1) (lt_length_of_getElem? hc)
  exact ⟨_, execute_instruction_eq prog loops s _ _ c1 (mem_getElem?_of_some prog _ _ hc)
    (switch_body_other prog c s h1 h2 h3 h4 h5 h6 h7 h8) hc1, rfl, rfl, rfl, rfl, rfl⟩

theorem execute_instruction_comment_witness :
    "a+".toList[(⟨0, 5, [1, 2], [7], [8], false⟩ : State).ip]? = some 'a' ∧
      ∃ s1, execute_instruction "a+".toList none ⟨0, 5, [1, 2], [7], [8], false⟩ = some s1 ∧
        s1.tape = [1, 2] ∧ s1.dp = 5 ∧ s1.input = [7] ∧ s1.output = [8] ∧ s1.ip = 0 + 1 :=
  ⟨by decide,
    execute_instruction_comment "a+".toList none ⟨0, 5, [1, 2], [7], [8], false⟩ 'a'
      (by decide) (by decide) (by decide) (by decide) (by decide) (by decide) (by decide)
      (by decide) (by decide)⟩

theorem execute_instruction_output_witness :
    ".+".toList[(⟨0, 1, [3, 4], [], [9], false⟩ : State).ip]? = some '.' ∧
      load [3, 4] 1 = some 4 ∧
        ∃ s1, execute_instruction ".+".toList none ⟨0, 1, [3, 4], [], [9], false⟩ = some s1 ∧
          s1.output = [9] ++ [4] ∧ s1.tape = [3, 4] ∧ s1.dp = 1 :=
  ⟨by decide, by decide,
    (execute_instruction_output ".+".toList none ⟨0, 1, [3, 4], [], [9], false⟩).1 4
      (by decide) (by decide)⟩

/-- C16 (counterexample): the program `<.` is run twice from the initial state with
the same (empty) input, in two memories that both hold the all-zero tape of 32000
cells and differ only in the byte just before it (7 and 0).  Both runs reach
`is_program_finished`, and they write different bytes, 7 and 0. -/
theorem run_off_tape_output_differs :
    HoldsTape (fun j : Int => if j = -1 then 7 else 0) zero_tape ∧
      HoldsTape (fun _ : Int => 0) zero_tape ∧
      (run_flat "<.".toList none 2
          (flat_initial_state (fun j : Int => if j = -1 then 7 else 0) [])).map
        (fun f => (f.is_program_finished, f.output)) = some (true, [7]) ∧
      (run_flat "<.".toList none 2 (flat_initial_state (fun _ : Int => 0) [])).map
        (fun f => (f.is_program_finished, f.output)) = some (true, [0]) := by
  have hz : ∀ (i v : Nat), zero_tape[i]? = some v → v = 0 := by
    intro i v h
    unfold zero_tape at h
    rw [List.getElem?_replicate] at h
    by_cases hi : i < DATA_ARRAY_SIZE
    · rw [if_pos hi] at h
      exact (Option.some.inj h).symm
    · rw [if_neg hi] at h
      exact Option.noConfusion h
  refine ⟨?_, ?_, by decide, by decide⟩
  · intro i v h
    have hne : ¬ ((i : Int) = -1) := by omega
    show (if (i : Int) = -1 then 7 else 0) = v
    rw [if_neg hne, hz i v h]
  · intro i v h
    show 0 = v
    rw [hz i v h]

/-- C16 (amended): for every program text, tape and input, if the run from the
initial state reaches `is_program_finished` with every cell it reads or writes
inside the tape (the run on the tape alone is defined and finished), then any two
runs from the initial state in memories holding that tape, whatever lies around
the tape and whatever their step budgets and `loops` arguments, that both reach
`is_program_finished` have written the same bytes and leave the same tape. -/
theorem run_deterministic_inside_tape (prog : List Char) (l1 l2 : Option Loops)
    (tape input : List Nat) (m1 m2 : Int → Nat) (j n k : Nat) (s : State) (f1 f2 : FlatState)
    (hm1 : HoldsTape m1 tape) (hm2 : HoldsTape m2 tape)
    (hin : run prog l1 j (initial_state tape input) = some s)
    (hs : s.is_program_finished = true)
    (h1 : run_flat prog l1 n (flat_initial_state m1 input) = some f1)
    (hf1 : f1.is_program_finished = true)
    (h2 : run_flat prog l2 k (flat_initial_state m2 input) = some f2)
    (hf2 : f2.is_program_finished = true) :
    f1.output = f2.output ∧ ∀ i : Nat, i < tape.length → f1.memory i = f2.memory i := by
  have key : ∀ (m : Int → Nat) (r : Nat) (f : FlatState), HoldsTape m tape →
      run_flat prog l1 r (flat_initial_state m input) = some f →
        f.is_program_finished = true → Agrees s f := by
    intro m r f hm hr hf
    obtain ⟨g, hg, b⟩ := run_flat_agrees prog l1 j _ s (flat_initial_state m input) hin
      ⟨rfl, rfl, rfl, rfl, rfl, hm⟩
    have hgf : g.is_program_finished = true := by rw [b.2.2.2.2.1, hs]
    have e1 := run_flat_stable prog l1 j _ g hg hgf r
    have e2 := run_flat_stable prog l1 r _ f hr hf j
    rw [Nat.add_comm r j, e1] at e2
    obtain rfl := Option.some.inj e2
    exact b
  rw [run_flat_loops prog l2 l1] at h2
  have b1 := key m1 n f1 hm1 h1 hf1
  have b2 := key m2 k f2 hm2 h2 hf2
  refine ⟨by rw [b1.2.2.2.1, b2.2.2.2.1], fun i hi => ?_⟩
  have hlen : s.tape.length = tape.length := run_length prog l1 j _ s hin
  have hget : s.tape[i]? = some s.tape[i] := List.getElem?_eq_getElem (by omega)
  rw [b1.2.2.2.2.2 i _ hget, b2.2.2.2.2.2 i _ hget]

theorem run_deterministic_inside_tape_witness :
    HoldsTape (fun j : Int => if j = 0 then 0 else 9) [0] ∧
      HoldsTape (fun _ : Int => 0) [0] ∧
      run "+.".toList none 2 (initial_state [0] []) = some ⟨2, 0, [1], [], [1], true⟩ ∧
      ∃ f1 f2,
        run_flat "+.".toList none 2
            (flat_initial_state (fun j : Int => if j = 0 then 0 else 9) []) = some f1 ∧
          f1.is_program_finished = true ∧
          run_flat "+.".toList (build_loops "+.".toList) 5
            (flat_initial_state (fun _ : Int => 0) []) = some f2 ∧
          f2.is_program_finished = true ∧
          (f1.output = f2.output ∧ ∀ i : Nat, i < [0].length → f1.memory i = f2.memory i) := by
  have hm1 : HoldsTape (fun j : Int => if j = 0 then 0 else 9) [0] := by
    intro i v h
    cases i with
    | zero =>
      simp only [List.getElem?_cons_zero, Option.some.injEq] at h
      subst h
      rfl
    | succ i => simp at h
  have hm2 : HoldsTape (fun _ : Int => 0) [0] := by
    intro i v h
    cases i with
    | zero =>
      simp only [List.getElem?_cons_zero, Option.some.injEq] at h
      subst h
      rfl
    | succ i => simp at h
  have hin : run "+.".toList none 2 (initial_state [0] []) = some ⟨2, 0, [1], [], [1], true⟩ := by
    decide
  exact ⟨hm1, hm2, hin, _, _, rfl, rfl, rfl, rfl,
    run_deterministic_inside_tape "+.".toList none (build_loops "+.".toList) [0] []
      (fun j : Int => if j = 0 then 0 else 9) (fun _ : Int => 0) 2 2 5
      ⟨2, 0, [1], [], [1], true⟩ _ _ hm1 hm2 hin rfl rfl rfl rfl rfl⟩

/-- C17: for every step of a program text (a C string): when the instruction is
anything but `[` on a zero cell or `]` on a non-zero cell the new instruction
pointer is `i + 1` (and with a readable current cell such a step is defined); and
after every step `is_program_finished` is true when the new instruction pointer
equals the length of the text and otherwise keeps the value it had. -/
theorem execute_instruction_advance (prog : List Char) (loops : Option Loops) (s : State)
    (hnul : NUL ∉ prog) :
    (∀ c s1, prog[s.ip]? = some c → execute_instruction prog loops s = some s1 →
      ¬ (c = '[' ∧ load s.tape s.dp = some 0) →
        ¬ (c = ']' ∧ ∃ v, load s.tape s.dp = some v ∧ v ≠ 0) → s1.ip = s.ip + 1) ∧
      (∀ c v, prog[s.ip]? = some c → load s.tape s.dp = some v →
        ¬ (c = '[' ∧ v = 0) → ¬ (c = ']' ∧ v ≠ 0) →
          ∃ s1, execute_instruction prog loops s = some s1 ∧ s1.ip = s.ip + 1) ∧
      (∀ s1, execute_instruction prog loops s = some s1 →
        s1.is_program_finished =
          if s1.ip = prog.length then true else s.is_program_finished) := by
  have key : ∀ c s1, prog[s.ip]? = some c → execute_instruction prog loops s = some s1 →
      ¬ (c = '[' ∧ load s.tape s.dp = some 0) →
        ¬ (c = ']' ∧ ∃ v, load s.tape s.dp = some v ∧ v ≠ 0) → s1.ip = s.ip + 1 := by
    intro c s1 hc h hj1 hj2
    obtain ⟨c0, s2, c1, h0, hsw, -, rfl⟩ := execute_instruction_some prog loops s s1 h
    rw [mem_getElem?_of_some prog _ _ hc] at h0
    obtain rfl := Option.some.inj h0
    show s2.ip + 1 = s.ip + 1
    rcases switch_body_some prog c s s2 hsw with
      ⟨-, rfl⟩ | ⟨-, rfl⟩ | ⟨-, v, t, -, -, rfl⟩ | ⟨-, v, t, -, -, rfl⟩ | ⟨-, v, -, rfl⟩ |
      ⟨-, t, -, rfl⟩ | ⟨rfl, v, hl, ⟨hv, ip, -, rfl⟩ | ⟨-, rfl⟩⟩ |
      ⟨rfl, v, hl, ⟨hv, ip, -, rfl⟩ | ⟨-, rfl⟩⟩ | ⟨-, -, -, -, -, -, -, -, rfl⟩
    · rfl
    · rfl
    · rfl
    · rfl
    · rfl
    · rfl
    · exact absurd ⟨rfl, by rw [hl, hv]⟩ hj1
    · rfl
    · exact absurd ⟨rfl, v, hl, hv⟩ hj2
    · rfl
    · rfl
  refine ⟨key, ?_, ?_⟩
  · intro c v hc hload hj1 hj2
    have hmem := mem_getElem?_of_some prog _ _ hc
    obtain ⟨c1, hc1⟩ := mem_getElem?_of_le prog (s.ip + 1) (lt_length_of_getElem? hc)
    have hex : ∃ s2, switch_body prog c s = some s2 ∧ s2.ip = s.ip := by
      by_cases e1 : c = '>'
      · subst e1; exact ⟨_, switch_body_right prog s, rfl⟩
      by_cases e2 : c = '<'
      · subst e2; exact ⟨_, switch_body_left prog s, rfl⟩
      by_cases e3 : c = '+'
      · subst e3
        obtain ⟨t, ht, -⟩ := store_of_load s.tape s.dp v ((v + 1) % 256) hload
        exact ⟨{ s with tape := t }, by rw [switch_body_plus, hload]; simp only [ht], rfl⟩
      by_cases e4 : c = '-'
      · subst e4
        obtain ⟨t, ht, -⟩ := store_of_load s.tape s.dp v ((v + 255) % 256) hload
        exact ⟨{ s with tape := t }, by rw [switch_body_minus, hload]; simp only [ht], rfl⟩
      by_cases e5 : c = '.'
      · subst e5
        exact ⟨{ s with output := s.output ++ [v] }, by rw [switch_body_dot, hload], rfl⟩
      by_cases e6 : c = ','
      · subst e6
        obtain ⟨t, ht, -⟩ := store_of_load s.tape s.dp v (to_uint8 (getchar s.input).1) hload
        exact ⟨{ s with tape := t, input := (getchar s.input).2 },
          by rw [switch_body_comma]; simp only [ht], rfl⟩
      by_cases e7 : c = '['
      · subst e7
        have hv : ¬ v = 0 := fun e => hj1 ⟨rfl, e⟩
        exact ⟨s, by rw [switch_body_open prog s v hload, if_neg hv], rfl⟩
      by_cases e8 : c = ']'
      · subst e8
        have hv : ¬ v ≠ 0 := fun e => hj2 ⟨rfl, e⟩
        exact ⟨s, by rw [switch_body_close prog s v hload, if_neg hv], rfl⟩
      exact ⟨s, switch_body_other prog c s e1 e2 e3 e4 e5 e6 e7 e8, rfl⟩
    obtain ⟨s2, hsw, hip⟩ := hex
    rw [← hip] at hc1
    exact ⟨_, execute_instruction_eq prog loops s s2 c c1 hmem hsw hc1, by simp only [hip]⟩
  · intro s1 h
    obtain ⟨c0, s2, c1, h0, hsw, h2, rfl⟩ := execute_instruction_some prog loops s s1 h
    have hfl : s2.is_program_finished = s.is_program_finished := by
      rcases switch_body_some prog c0 s s2 hsw with
        ⟨-, rfl⟩ | ⟨-, rfl⟩ | ⟨-, v, t, -, -, rfl⟩ | ⟨-, v, t, -, -, rfl⟩ | ⟨-, v, -, rfl⟩ |
        ⟨-, t, -, rfl⟩ | ⟨-, v, -, ⟨-, ip, -, rfl⟩ | ⟨-, rfl⟩⟩ |
        ⟨-, v, -, ⟨-, ip, -, rfl⟩ | ⟨-, rfl⟩⟩ | ⟨-, -, -, -, -, -, -, -, rfl⟩
      all_goals rfl
    have hiff := mem_nul_iff prog hnul (s2.ip + 1) c1 h2
    show (if c1 = NUL then true else s2.is_program_finished) =
      if s2.ip + 1 = prog.length then true else s.is_program_finished
    by_cases e : c1 = NUL
    · rw [if_pos e, if_pos (hiff.1 e)]
    · rw [if_neg e, if_neg (fun x => e (hiff.2 x)), hfl]

theorem execute_instruction_advance_witness :
    NUL ∉ "+-".toList ∧
      "+-".toList[(⟨1, 0, [1], [], [], false⟩ : State).ip]? = some '-' ∧
      execute_instruction "+-".toList none ⟨1, 0, [1], [], [], false⟩ =
        some ⟨2, 0, [0], [], [], true⟩ ∧
      (⟨2, 0, [0], [], [], true⟩ : State).ip = 1 + 1 ∧
      (⟨2, 0, [0], [], [], true⟩ : State).is_program_finished =
        if (⟨2, 0, [0], [], [], true⟩ : State).ip = "+-".toList.length then true else false :=
  ⟨by decide, by decide, by decide,
    (execute_instruction_advance "+-".toList none ⟨1, 0, [1], [], [], false⟩ (by decide)).1
      '-' ⟨2, 0, [0], [], [], true⟩ (by decide) (by decide) (by decide) (by decide),
    (execute_instruction_advance "+-".toList none ⟨1, 0, [1], [], [], false⟩
      (by decide)).2.2 ⟨2, 0, [0], [], [], true⟩ (by decide)⟩

/-- C18: for every program text on which `build_loops` succeeds (a well-nested
text) and every instruction pointer `i` below its length: the forward scan started
at a `[` ends on a position of the text after `i`, the backward scan started at a
`]` ends on a position before `i`, neither reads outside the text; with a readable
current cell the step is defined, and every defined step gives an instruction
pointer `i1` with `1 ≤ i1 ≤ length`. -/
theorem execute_instruction_scans_in_bounds (prog : List Char) (loops : Option Loops)
    (s : State) (hnul : NUL ∉ prog) (hb : ∃ l, build_loops prog = some l)
    (hi : s.ip < prog.length) :
    (prog[s.ip]? = some '[' →
      ∃ q, scan_forward ((mem prog).drop (s.ip + 1)) s.ip 1 = some q ∧
        s.ip < q ∧ q < prog.length) ∧
      (prog[s.ip]? = some ']' →
        ∃ p, scan_backward prog s.ip 1 = some p ∧ p < s.ip) ∧
      ((∃ v, load s.tape s.dp = some v) → ∃ s1, execute_instruction prog loops s = some s1) ∧
      (∀ s1, execute_instruction prog loops s = some s1 →
        1 ≤ s1.ip ∧ s1.ip ≤ prog.length) := by
  have hw : WellNested prog := (build_loops_isSome_iff prog hnul).1 hb
  have hfwd : prog[s.ip]? = some '[' →
      ∃ q, scan_forward ((mem prog).drop (s.ip + 1)) s.ip 1 = some q ∧
        s.ip < q ∧ q < prog.length := by
    intro hp
    obtain ⟨q, hq⟩ := matching_exists prog hw s.ip hp
    have he := matching_encloses prog s.ip q hq
    have hscan := scan_forward_encloses prog s.ip q he (q - s.ip) s.ip 1 (Nat.le_refl _)
      (by have := he.1; omega)
      (by rw [height_succ prog s.ip _ hp]; simp [delta])
    exact ⟨q, hscan, he.1, lt_length_of_getElem? he.2.2.1⟩
  have hbwd : prog[s.ip]? = some ']' →
      ∃ p, scan_backward prog s.ip 1 = some p ∧ p < s.ip := by
    intro hq
    obtain ⟨p, hp⟩ := matching_exists_close prog hw s.ip hq
    have he := matching_encloses prog p s.ip hp
    have hscan := scan_backward_encloses prog p s.ip he s.ip 1 (by have := he.1; omega)
      (Nat.le_refl _)
      (by have h1 := height_succ prog s.ip _ hq
          have h2 := he.2.2.2.1
          have h3 : delta ']' = -1 := by decide
          rw [h3] at h1
          omega)
    exact ⟨p, hscan, he.1⟩
  refine ⟨hfwd, hbwd, ?_, ?_⟩
  · rintro ⟨v, hload⟩
    have hget : prog[s.ip]? = some prog[s.ip] := List.getElem?_eq_getElem hi
    have hmem := mem_getElem?_of_some prog _ _ hget
    have hex : ∃ s2, switch_body prog prog[s.ip] s = some s2 ∧ s2.ip < prog.length := by
      by_cases e1 : prog[s.ip] = '>'
      · rw [e1]; exact ⟨_, switch_body_right prog s, hi⟩
      by_cases e2 : prog[s.ip] = '<'
      · rw [e2]; exact ⟨_, switch_body_left prog s, hi⟩
      by_cases e3 : prog[s.ip] = '+'
      · rw [e3]
        obtain ⟨t, ht, -⟩ := store_of_load s.tape s.dp v ((v + 1) % 256) hload
        exact ⟨{ s with tape := t }, by rw [switch_body_plus, hload]; simp only [ht], hi⟩
      by_cases e4 : prog[s.ip] = '-'
      · rw [e4]
        obtain ⟨t, ht, -⟩ := store_of_load s.tape s.dp v ((v + 255) % 256) hload
        exact ⟨{ s with tape := t }, by rw [switch_body_minus, hload]; simp only [ht], hi⟩
      by_cases e5 : prog[s.ip] = '.'
      · rw [e5]
        exact ⟨{ s with output := s.output ++ [v] }, by rw [switch_body_dot, hload], hi⟩
      by_cases e6 : prog[s.ip] = ','
      · rw [e6]
        obtain ⟨t, ht, -⟩ := store_of_load s.tape s.dp v (to_uint8 (getchar s.input).1) hload
        exact ⟨{ s with tape := t, input := (getchar s.input).2 },
          by rw [switch_body_comma]; simp only [ht], hi⟩
      by_cases e7 : prog[s.ip] = '['
      · rw [e7]
        rw [e7] at hget
        obtain ⟨q, hscan, -, hq⟩ := hfwd hget
        by_cases hv : v = 0
        · exact ⟨{ s with ip := q },
            by rw [switch_body_open prog s v hload, if_pos hv, hscan], hq⟩
        · exact ⟨s, by rw [switch_body_open prog s v hload, if_neg hv], hi⟩
      by_cases e8 : prog[s.ip] = ']'
      · rw [e8]
        rw [e8] at hget
        obtain ⟨p, hscan, hp⟩ := hbwd hget
        by_cases hv : v ≠ 0
        · exact ⟨{ s with ip := p },
            by rw [switch_body_close prog s v hload, if_pos hv, hscan],
            show p < prog.length by omega⟩
        · exact ⟨s, by rw [switch_body_close prog s v hload, if_neg hv], hi⟩
      exact ⟨s, switch_body_other prog _ s e1 e2 e3 e4 e5 e6 e7 e8, hi⟩
    obtain ⟨s2, hsw, hlt⟩ := hex
    obtain ⟨c1, hc1⟩ := mem_getElem?_of_le prog (s2.ip + 1) (by omega)
    exact ⟨_, execute_instruction_eq prog loops s s2 _ c1 hmem hsw hc1⟩
  · intro s1 h
    obtain ⟨c0, s2, c1, -, -, h2, rfl⟩ := execute_instruction_some prog loops s s1 h
    have hl := lt_length_of_getElem? h2
    simp only [mem, List.length_append, List.length_singleton] at hl
    exact ⟨Nat.le_add_left 1 s2.ip, by show s2.ip + 1 ≤ prog.length; omega⟩

theorem execute_instruction_scans_in_bounds_witness :
    NUL ∉ "+[-]".toList ∧ (∃ l, build_loops "+[-]".toList = some l) ∧
      (⟨3, 0, [5, 7], [], [], false⟩ : State).ip < "+[-]".toList.length ∧
      (∃ p, scan_backward "+[-]".toList 3 1 = some p ∧ p < 3) ∧
      (∃ s1, execute_instruction "+[-]".toList none ⟨3, 0, [5, 7], [], [], false⟩ = some s1) :=
  ⟨by decide, ⟨_, (by decide : build_loops "+[-]".toList = some ⟨1, [⟨Ptr.stack 0, Ptr.prog 3⟩]⟩)⟩,
    by decide,
    (execute_instruction_scans_in_bounds "+[-]".toList none ⟨3, 0, [5, 7], [], [], false⟩
      (by decide) ⟨_, (by decide :
        build_loops "+[-]".toList = some ⟨1, [⟨Ptr.stack 0, Ptr.prog 3⟩]⟩)⟩ (by decide)).2.1
      (by decide),
    (execute_instruction_scans_in_bounds "+[-]".toList none ⟨3, 0, [5, 7], [], [], false⟩
      (by decide) ⟨_, (by decide :
        build_loops "+[-]".toList = some ⟨1, [⟨Ptr.stack 0, Ptr.prog 3⟩]⟩)⟩ (by decide)).2.2.1
      ⟨5, by decide⟩⟩

/-- C19: the result of `execute_instruction` does not depend on its `loops`
argument: for every program, state and input and any two values of `loops`, among
them the result of `build_loops`, a null pointer and an empty table, the resulting
state (instruction pointer, data pointer, tape, input, output, finished flag) is the
same. -/
theorem execute_instruction_ignores_loops (prog : List Char) (s : State)
    (l1 l2 : Option Loops) :
    execute_instruction prog l1 s = execute_instruction prog l2 s ∧
      execute_instruction prog (build_loops prog) s = execute_instruction prog none s ∧
      execute_instruction prog (build_loops prog) s =
        execute_instruction prog (some { count := 0, array := [] }) s :=
  ⟨rfl, rfl, rfl⟩

end Brainfuck
